import Mathlib

/-!
# mover: relocation of files from a watched source tree into a destination tree

A shallow embedding of `mover.go`.  Go strings are lists of characters, the
library functions of `path/filepath`, `strings` and `os` the program calls are
modelled after their documented behaviour on Unix, and the program's own
functions (`createDirectory`, `chkFileExist`, `chkFileRegexp`, `mover`,
`walkWatcher` and the pieces of `main`) are translated statement by statement
on top of them.

Conventions: a function that touches the filesystem takes the state of the
process (`World`) and returns the new one; every call it makes is appended to
the trace of the world.  A method call on a `nil` file information is a
`Panic`.  The regular-expression matcher is a parameter.  The task `main`
starts for an event is run to its end before the loop goes on.
-/

set_option autoImplicit false

/-- Go strings, as lists of characters. -/
abbrev Str := List Char

/-! ## `strings` and `path/filepath` (Unix) -/

namespace strings

/-- The call `strings.Split(s, "/")`: the pieces of `s` between separators; never empty. -/
def Split : Str → List Str
  | [] => [[]]
  | c :: cs =>
    if c = '/' then [] :: Split cs
    else
      match Split cs with
      | [] => [[c]]
      | w :: ws => (c :: w) :: ws

/-- The call `strings.Join(elems, "/")`. -/
def Join : List Str → Str
  | [] => []
  | [w] => w
  | w :: ws => w ++ '/' :: Join ws

end strings

namespace filepath

/-- One step of the element loop of `Clean`: `stk` holds the elements written so far,
last element first.  Empty and `.` elements are dropped, `..` removes the last
real element when there is one, is dropped at the root of a rooted path and is
kept otherwise, and any other element is appended. -/
def cleanStep (rooted : Bool) (stk : List Str) (c : Str) : List Str :=
  if c = [] ∨ c = ['.'] then stk
  else if c = ['.', '.'] then
    match stk with
    | [] => if rooted then [] else [c]
    | t :: rest => if t = ['.', '.'] then (if rooted then stk else c :: stk) else rest
  else c :: stk

/-- A proper file name: not empty, not `.` or `..`, and without separator. -/
def properName (c : Str) : Bool :=
  decide (c ≠ [] ∧ c ≠ ['.'] ∧ c ≠ ['.', '.'] ∧ '/' ∉ c)

/-- The elements `Clean` keeps for `path`, last element first. -/
def cleanStack (rooted : Bool) (path : Str) : List Str :=
  (strings.Split path).foldl (cleanStep rooted) []

/-- Whether the path starts with the separator. -/
def isRooted (path : Str) : Bool :=
  path.head? = some '/'

/-- The string `Clean` writes for a stack of elements: the elements joined by
separators after the leading separator of a rooted path, and `.` for an empty
unrooted result. -/
def render (rooted : Bool) (stk : List Str) : Str :=
  if rooted then '/' :: strings.Join stk.reverse
  else if stk = [] then ['.'] else strings.Join stk.reverse

/-- The clean relative path with the elements given, first element first: the
elements joined by separators, and `.` when there is none. -/
def ofElems (cs : List Str) : Str :=
  render false cs.reverse

/-- The function `filepath.Clean`. -/
def Clean (path : Str) : Str :=
  render (isRooted path) (cleanStack (isRooted path) path)

/-- The function `filepath.Join`: the elements from the first non-empty one on are
joined by separators and cleaned; the result is empty when every element is. -/
def Join : List Str → Str
  | [] => []
  | e :: es => if e = [] then Join es else Clean (strings.Join (e :: es))

/-- The part of `path` up to and including its last separator. -/
def dirPart (path : Str) : Str :=
  (path.reverse.dropWhile (fun c => c != '/')).reverse

/-- The part of `path` after its last separator. -/
def lastPart (path : Str) : Str :=
  (path.reverse.takeWhile (fun c => c != '/')).reverse

/-- The function `filepath.Dir`. -/
def Dir (path : Str) : Str :=
  Clean (dirPart path)

/-- The function `filepath.Base`. -/
def Base (path : Str) : Str :=
  if path = [] then ['.']
  else
    let p := (path.reverse.dropWhile (fun c => c == '/')).reverse
    let q := lastPart p
    if q = [] then ['/'] else q

/-- State of the element loop of `Rel` when it stops: the base element under
comparison (`base[b0:bi]`), the unmatched rest of the base (`base[b0:]`) and the
unmatched rest of the target (`targ[t0:]`). -/
structure RelPos where
  word : Str
  baseRest : Str
  targRest : Str
  deriving DecidableEq, Repr

/-- The element loop of `Rel`, on the unmatched rests of base and target.  Each
round compares the next element of both and, when they agree, skips it and one
separator.  The first argument bounds the number of rounds. -/
def relLoop : Nat → Str → Str → RelPos
  | 0, b, t => ⟨[], b, t⟩
  | fuel + 1, b, t =>
    if b = [] ∨ t = [] then ⟨[], b, t⟩
    else
      let bw := b.takeWhile (fun c => c != '/')
      let tw := t.takeWhile (fun c => c != '/')
      if tw ≠ bw then ⟨bw, b, t⟩
      else relLoop fuel ((b.dropWhile (fun c => c != '/')).drop 1)
        ((t.dropWhile (fun c => c != '/')).drop 1)

/-- The function `filepath.Rel`; `none` is its error result. -/
def Rel (basepath targpath : Str) : Option Str :=
  let base := Clean basepath
  let targ := Clean targpath
  if targ = base then some ['.']
  else
    let base := if base = ['.'] then [] else base
    if isRooted base ≠ isRooted targ then none
    else
      let pos := relLoop (base.length + 1) base targ
      if pos.word = ['.', '.'] then none
      else if pos.baseRest ≠ [] then
        let seps := pos.baseRest.count '/'
        let ups := ['.', '.'] ++ (List.replicate seps ['/', '.', '.']).flatten
        some (if pos.targRest ≠ [] then ups ++ '/' :: pos.targRest else ups)
      else some pos.targRest

/-- The stacks `Clean` works with: proper names on top of `..` elements, and no
`..` element in a rooted path. -/
def ValidStack (rd : Bool) (stk : List Str) : Prop :=
  ∃ (ns : List Str) (n : Nat), stk = ns ++ List.replicate n ['.', '.'] ∧
    (∀ c ∈ ns, properName c = true) ∧ (rd = true → n = 0)

/-- A clean relative path that does not start with a `..` element: the paths `r`
for which `Join(root, r)` lies lexically under `root`. -/
def cleanLocal (r : Str) : Bool :=
  decide (Clean r = r) && !isRooted r && decide ((strings.Split r).head? ≠ some ['.', '.'])

end filepath

/-! ## Filesystem model

The filesystem is a finite map from resolved paths (lists of element names below
the root directory) to nodes.  Relative paths are resolved against the root
directory, the working directory of the process.  A symbolic link is followed
only as the last element of a path, at most forty times in a row; nothing is
stored beneath a symbolic link, so the model is the kernel on paths that do not
run through a symbolic link.  Every stored path is a file of its own: there are
no hard links.  The process may change the owner of any file. -/

/-- File kinds told apart by `os.FileMode`: regular file, directory, symbolic
link, and everything else (named pipe, socket, device). -/
inductive Kind
  | regular
  | dir
  | symlink
  | other
  deriving DecidableEq, Repr

/-- A file: kind, owner, content (of a regular file) and target (of a symbolic link). -/
structure Node where
  kind : Kind
  uid : Int
  gid : Int
  data : List Nat
  target : Str
  deriving DecidableEq, Repr

/-- Error numbers the model produces. -/
inductive Errno
  | ENOENT
  | ENOTDIR
  | ELOOP
  | EISDIR
  | ENOTEMPTY
  | EINVAL
  | EBUSY
  deriving DecidableEq, Repr

deriving instance DecidableEq for Except

/-- A resolved path: the element names from the root directory down. -/
abbrev Key := List Str

/-- The files of a filesystem, by resolved path; the first entry of a key counts. -/
abbrev FS := List (Key × Node)

namespace FS

/-- The node stored at a key. -/
def find : FS → Key → Option Node
  | [], _ => none
  | (k', n) :: rest, k => if k' = k then some n else find rest k

/-- Removes a key. -/
def erase (fs : FS) (k : Key) : FS :=
  fs.filter (fun e => decide (e.1 ≠ k))

/-- Stores a node at a key, replacing what was there. -/
def insert (fs : FS) (k : Key) (n : Node) : FS :=
  (k, n) :: erase fs k

/-- Applies `f` to the node stored at a key. -/
def modify (fs : FS) (k : Key) (f : Node → Node) : FS :=
  fs.map (fun e => if e.1 = k then (e.1, f e.2) else e)

/-- Lexical resolution of a path string against the root directory: `.` and empty
elements are dropped and `..` takes back the element before it.  This is the
resolution of the kernel for clean paths, and for other paths when the
directories their `..` elements step out of exist. -/
def resolve (p : Str) : Key :=
  (filepath.cleanStack true p).reverse

/-- Path lookup from the directory `pre` down the elements given: every directory
on the way has to exist and be a directory. -/
def lookupFrom (fs : FS) : Key → List Str → Except Errno Node
  | pre, [] =>
    match find fs pre with
    | none => .error Errno.ENOENT
    | some n => .ok n
  | pre, c :: cs =>
    match find fs pre with
    | none => .error Errno.ENOENT
    | some n => if n.kind = Kind.dir then lookupFrom fs (pre ++ [c]) cs else .error Errno.ENOTDIR

/-- Path lookup of a resolved path, not following a final symbolic link. -/
def lookupKey (fs : FS) (k : Key) : Except Errno Node :=
  lookupFrom fs [] k

/-- Where a symbolic link stored at `k` with target `t` points: `t` itself when
rooted, else `t` taken from the directory of the link. -/
def linkTarget (k : Key) (t : Str) : Key :=
  ((strings.Split t).foldl (filepath.cleanStep true)
    (if filepath.isRooted t then [] else k.dropLast.reverse)).reverse

/-- Path lookup following final symbolic links, at most `fuel` of them. -/
def followKey (fs : FS) : Nat → Key → Except Errno (Key × Node)
  | 0, k =>
    match lookupKey fs k with
    | .error e => .error e
    | .ok n => if n.kind = Kind.symlink then .error Errno.ELOOP else .ok (k, n)
  | fuel + 1, k =>
    match lookupKey fs k with
    | .error e => .error e
    | .ok n => if n.kind = Kind.symlink then followKey fs fuel (linkTarget k n.target) else .ok (k, n)

/-- The system call `lstat`. -/
def lstat (fs : FS) (p : Str) : Except Errno Node :=
  lookupKey fs (resolve p)

/-- The system call `stat`. -/
def stat (fs : FS) (p : Str) : Except Errno Node :=
  match followKey fs 40 (resolve p) with
  | .error e => .error e
  | .ok kn => .ok kn.2

/-- A directory as `mkdir` creates it, owned by the creating process. -/
def newDir (uid gid : Int) : Node :=
  { kind := Kind.dir, uid := uid, gid := gid, data := [], target := [] }

/-- Creates the directories missing on the way from `pre` down the elements given. -/
def mkdirFrom (uid gid : Int) : FS → Key → List Str → Except Errno FS
  | fs, _, [] => .ok fs
  | fs, pre, c :: cs =>
    match find fs (pre ++ [c]) with
    | none => mkdirFrom uid gid (insert fs (pre ++ [c]) (newDir uid gid)) (pre ++ [c]) cs
    | some n =>
      if n.kind = Kind.dir then mkdirFrom uid gid fs (pre ++ [c]) cs else .error Errno.ENOTDIR

/-- The function `os.MkdirAll`: nothing to do when the path is a directory, an
error when it is another file, else every missing directory on the way is made. -/
def mkdirAll (fs : FS) (uid gid : Int) (p : Str) : Except Errno FS :=
  match stat fs p with
  | .ok n => if n.kind = Kind.dir then .ok fs else .error Errno.ENOTDIR
  | .error _ => mkdirFrom uid gid fs [] (resolve p)

/-- The id the system call `chown` gets for a Go `int`: its low 32 bits. -/
def id32 (x : Int) : Int :=
  x % 4294967296

/-- The node with its owner changed as the system call `chown` does: an id counts
by its low 32 bits, and the id `4294967295`, the `-1` of the system call, keeps
the value. -/
def setOwner (uid gid : Int) (n : Node) : Node :=
  { n with
    uid := if id32 uid = 4294967295 then n.uid else id32 uid,
    gid := if id32 gid = 4294967295 then n.gid else id32 gid }

/-- The system call `chown`, which follows symbolic links. -/
def chown (fs : FS) (p : Str) (uid gid : Int) : Except Errno FS :=
  match followKey fs 40 (resolve p) with
  | .error e => .error e
  | .ok kn => .ok (modify fs kn.1 (setOwner uid gid))

/-- Whether something is stored directly or indirectly below a key. -/
def hasChildren (fs : FS) (k : Key) : Bool :=
  fs.any (fun e => k.isPrefixOf e.1 && decide (e.1 ≠ k))

/-- Moves the subtree at `ko` to `kn`. -/
def moveTree (fs : FS) (ko kn : Key) : FS :=
  fs.map (fun e => if ko.isPrefixOf e.1 then (kn ++ e.1.drop ko.length, e.2) else e)

/-- The system call `rename`. -/
def rename (fs : FS) (old new : Str) : Except Errno FS :=
  let ko := resolve old
  let kn := resolve new
  match lookupKey fs ko with
  | .error e => .error e
  | .ok n =>
    match lookupKey fs kn.dropLast with
    | .error e => .error e
    | .ok pn =>
      if pn.kind ≠ Kind.dir then .error Errno.ENOTDIR
      else if ko = [] ∨ kn = [] then .error Errno.EBUSY
      else if ko = kn then .ok fs
      else if n.kind = Kind.dir then
        if ko.isPrefixOf kn then .error Errno.EINVAL
        else
          match find fs kn with
          | none => .ok (moveTree fs ko kn)
          | some m =>
            if m.kind ≠ Kind.dir then .error Errno.ENOTDIR
            else if hasChildren fs kn then .error Errno.ENOTEMPTY
            else .ok (moveTree (erase fs kn) ko kn)
      else
        match find fs kn with
        | none => .ok (insert (erase fs ko) kn n)
        | some m => if m.kind = Kind.dir then .error Errno.EISDIR else .ok (insert (erase fs ko) kn n)

/-- Byte order of names. -/
def strLe : Str → Str → Bool
  | [], _ => true
  | _ :: _, [] => false
  | a :: as, b :: bs =>
    if a.toNat < b.toNat then true else if b.toNat < a.toNat then false else strLe as bs

/-- Order of resolved paths in which a directory walk visits them: element by
element, a directory before what is in it. -/
def keyLe : Key → Key → Bool
  | [], _ => true
  | _ :: _, [] => false
  | a :: as, b :: bs => if a = b then keyLe as bs else strLe a b

/-- Inserts a key into a sorted list of keys, once. -/
def insertKey (k : Key) : List Key → List Key
  | [] => [k]
  | h :: t => if k = h then h :: t else if keyLe k h then k :: h :: t else h :: insertKey k t

/-- Sorts keys in walk order, without repetition. -/
def sortKeys (ks : List Key) : List Key :=
  ks.foldr insertKey []

/-- The keys stored at or below `root`, in walk order. -/
def subtree (fs : FS) (root : Key) : List Key :=
  sortKeys ((fs.map Prod.fst).filter (fun k => root.isPrefixOf k))

/-- The names in the directory at `k`, sorted. -/
def childNames (fs : FS) (k : Key) : List Str :=
  ((sortKeys ((fs.map Prod.fst).filter
    (fun e => k.isPrefixOf e && decide (e.length = k.length + 1)))).map
      (fun e => e.drop k.length)).flatten

/-- Well-formed filesystem: every stored key consists of proper file names and,
unless it is the root, its parent is stored as a directory. -/
def wf (fs : FS) : Bool :=
  fs.all (fun e =>
    e.1.all filepath.properName &&
    (decide (e.1 = []) ||
      match find fs e.1.dropLast with
      | some p => decide (p.kind = Kind.dir)
      | none => false))

end FS
/-! ## The process: filesystem, watch registry and record of calls -/

/-- The calls the program makes, as recorded in the trace. -/
inductive Call
  | stat (path : Str)
  | lstat (path : Str)
  | mkdirAll (path : Str)
  | walk (root : Str)
  | chown (path : Str) (uid gid : Int)
  | rename (old new : Str)
  | readDir (path : Str)
  | watchAdd (path : Str)
  | watchRemove (path : Str)
  | sleep (seconds : Int)
  | task (name : Str)
  | mover (path : Str)
  deriving DecidableEq, Repr

/-- State of the process and its surroundings: the filesystem, the directories
the watcher is subscribed to, the calls made so far (oldest first) and the
effective user and group of the process. -/
structure World where
  fs : FS
  watched : List Str
  trace : List Call
  euid : Int
  egid : Int
  deriving DecidableEq

/-- Records a call. -/
def World.log (w : World) (c : Call) : World :=
  { w with trace := w.trace ++ [c] }

/-- The trace of `w2` continues the trace of `w1`. -/
def Continues (w1 w2 : World) : Prop :=
  ∃ t, w2.trace = w1.trace ++ t

/-- Relation between the filesystem before and after changes of owner: every node is as before or has its owner set. -/
def OwnerStep (u g : Int) (fs fs1 : FS) : Prop :=
  ∀ k, FS.find fs1 k = FS.find fs k ∨ FS.find fs1 k = (FS.find fs k).map (FS.setOwner u g)

/-- A run-time panic of the Go program; it terminates the process. -/
inductive Panic
  | nilDereference
  deriving DecidableEq, Repr

/-- The `error` value that comes with a result: `none` is `nil`. -/
def errOf {α : Type} : Except Errno α → Option Errno
  | .ok _ => none
  | .error e => some e

namespace os

/-- The function `os.Stat`. -/
def Stat (w : World) (name : Str) : Except Errno Node × World :=
  (FS.stat w.fs name, w.log (Call.stat name))

/-- The function `os.Lstat`. -/
def Lstat (w : World) (name : Str) : Except Errno Node × World :=
  (FS.lstat w.fs name, w.log (Call.lstat name))

/-- The function `os.IsNotExist`. -/
def IsNotExist (err : Option Errno) : Bool :=
  decide (err = some Errno.ENOENT)

/-- The function `os.MkdirAll`. -/
def MkdirAll (w : World) (path : Str) : Option Errno × World :=
  match FS.mkdirAll w.fs w.euid w.egid path with
  | .error e => (some e, w.log (Call.mkdirAll path))
  | .ok fs => (none, { w.log (Call.mkdirAll path) with fs := fs })

/-- The function `os.Chown`. -/
def Chown (w : World) (name : Str) (uid gid : Int) : Option Errno × World :=
  match FS.chown w.fs name uid gid with
  | .error e => (some e, w.log (Call.chown name uid gid))
  | .ok fs => (none, { w.log (Call.chown name uid gid) with fs := fs })

/-- The function `os.Rename`. -/
def Rename (w : World) (oldpath newpath : Str) : Option Errno × World :=
  match FS.rename w.fs oldpath newpath with
  | .error e => (some e, w.log (Call.rename oldpath newpath))
  | .ok fs => (none, { w.log (Call.rename oldpath newpath) with fs := fs })

end os

namespace ioutil

/-- The function `ioutil.ReadDir`: the entries of a directory with their `lstat`
information, sorted by name. -/
def ReadDir (w : World) (dirname : Str) : Except Errno (List (Str × Node)) × World :=
  match FS.followKey w.fs 40 (FS.resolve dirname) with
  | .error e => (.error e, w.log (Call.readDir dirname))
  | .ok kn =>
    if kn.2.kind ≠ Kind.dir then (.error Errno.ENOTDIR, w.log (Call.readDir dirname))
    else
      (.ok ((FS.childNames w.fs kn.1).filterMap (fun c =>
          match FS.find w.fs (kn.1 ++ [c]) with
          | some n => some (c, n)
          | none => none)),
        w.log (Call.readDir dirname))

end ioutil

namespace filepath

/-- The name `Walk` passes for the entry reached from `root` down the names `rel`:
each level is `Join(path, name)`. -/
def walkName (root : Str) (rel : List Str) : Str :=
  rel.foldl (fun p n => Join [p, n]) root

/-- The entries `Walk` visits from an existing `root`, in order: every file at or
below it, a directory before its entries and the entries of a directory by name. -/
def walkEntries (fs : FS) (root : Str) : List Str :=
  (FS.subtree fs (FS.resolve root)).map (fun k => walkName root (k.drop (FS.resolve root).length))

/-- The visits of `Walk`: the callback gets each name with its `lstat` result and
the first error it returns ends the walk. -/
def walkLoop {σ : Type} (fsOf : σ → FS)
    (fn : σ → Str → Except Errno Node → Except Panic (Option Errno × σ)) :
    List Str → σ → Except Panic (Option Errno × σ)
  | [], s => .ok (none, s)
  | name :: rest, s =>
    match fn s name (FS.lstat (fsOf s) name) with
    | .error p => .error p
    | .ok (some e, s1) => .ok (some e, s1)
    | .ok (none, s1) => walkLoop fsOf fn rest s1

/-- The function `filepath.Walk`: when `lstat` of the root fails the callback is
called once, with that error and no file information. -/
def Walk {σ : Type} (fsOf : σ → FS) (root : Str)
    (fn : σ → Str → Except Errno Node → Except Panic (Option Errno × σ)) (s : σ) :
    Except Panic (Option Errno × σ) :=
  match FS.lstat (fsOf s) root with
  | .error e => fn s root (.error e)
  | .ok _ => walkLoop fsOf fn (walkEntries (fsOf s) root) s

end filepath

namespace watcher

/-- The method `watcher.Add`: subscribes to a path that exists. -/
def Add (w : World) (name : Str) : Option Errno × World :=
  match FS.stat w.fs name with
  | .error e => (some e, w.log (Call.watchAdd name))
  | .ok _ => (none, { w.log (Call.watchAdd name) with watched := name :: w.watched })

/-- The method `watcher.Remove`. -/
def Remove (w : World) (name : Str) : World :=
  { w.log (Call.watchRemove name) with watched := w.watched.filter (fun p => decide (p ≠ name)) }

end watcher

namespace fsnotify

/-- The operation bits of `fsnotify.Op`. -/
def Create : Nat := 1
/-- See `Create`. -/
def Write : Nat := 2
/-- See `Create`. -/
def Remove : Nat := 4
/-- See `Create`. -/
def Rename : Nat := 8
/-- See `Create`. -/
def Chmod : Nat := 16

/-- An event of the watcher: the path and the operations (a bit mask). -/
structure Event where
  Name : Str
  Op : Nat

end fsnotify

/-! ## The program -/

/-- The configuration, as loaded from the configuration file. -/
structure tomlConfig where
  Movall : Bool
  Source : Str
  Destin : Str
  Recurs : Bool
  Fileop : Str
  Regexp : Str
  Logtag : Str
  Syslog : Bool
  Owrite : Bool
  Delay : Int
  Uid : Int
  Gid : Int

/-- The function `walkWatcher`: the mode of the file information is read whatever
the error is. -/
def walkWatcher (w : World) (path : Str) (ofinfo : Except Errno Node) :
    Except Panic (Option Errno × World) :=
  match ofinfo with
  | .error _ => .error Panic.nilDereference
  | .ok info => if info.kind = Kind.dir then .ok (watcher.Add w path) else .ok (none, w)

/-- The callback of the walk in `createDirectory`. -/
def chownWalkFn (config : tomlConfig) (w : World) (name : Str) (info : Except Errno Node) :
    Except Panic (Option Errno × World) :=
  match info with
  | .error e => .ok (some e, w)
  | .ok _ => .ok (os.Chown w name config.Uid config.Gid)

/-- The root of the walk in `createDirectory` that changes owners (`firstDir`). -/
def chownRoot (path : Str) (config : tomlConfig) : Str :=
  let relPath := (filepath.Rel config.Destin path).getD []
  let dirPath := filepath.Dir relPath
  let firstDir := filepath.Join [config.Destin, (strings.Split dirPath).headD []]
  if dirPath = ['.'] then path else firstDir

/-- The function `createDirectory`. -/
def createDirectory (w : World) (path : Str) (config : tomlConfig) : Except Panic (Bool × World) :=
  let (file, w1) := os.Stat w path
  if os.IsNotExist (errOf file) then
    match os.MkdirAll w1 path with
    | (some _, w2) => .ok (false, w2)
    | (none, w2) =>
      if config.Uid ≠ -1 ∧ config.Gid ≠ -1 then
        let firstDir := chownRoot path config
        match filepath.Walk World.fs firstDir (chownWalkFn config) (w2.log (Call.walk firstDir)) with
        | .error p => .error p
        | .ok (some _, w3) => .ok (false, w3)
        | .ok (none, w3) => .ok (true, w3)
      else .ok (true, w2)
  else
    match file with
    | .error _ => .error Panic.nilDereference
    | .ok info => if info.kind = Kind.regular then .ok (false, w1) else .ok (true, w1)

/-- The function `chkFileExist`. -/
def chkFileExist (_path : Str) (err : Option Errno) : Bool :=
  if os.IsNotExist err then false else true

/-- The function `chkFileRegexp`; `MatchString` stands for `regexp.MatchString`,
false when the expression does not compile. -/
def chkFileRegexp (MatchString : Str → Str → Bool) (path re : Str) : Bool :=
  MatchString re path

/-- The destination directory `mover` computes (`destPath`). -/
def destPath (path : Str) (config : tomlConfig) : Str :=
  let relPath := (filepath.Rel config.Source path).getD []
  let dirPath := filepath.Dir relPath
  filepath.Join [config.Destin, dirPath]

/-- The destination file path `mover` computes (`destName`). -/
def destName (path : Str) (config : tomlConfig) : Str :=
  let fileName := filepath.Base path
  filepath.Join [destPath path config, fileName]

/-- Where `mover` returns. -/
inductive Exit
  | noDirectory
  | alreadyExists
  | renameFailed
  | chownFailed
  | moved
  deriving DecidableEq, Repr

/-- The function `mover`; the result tells which `return` was taken. -/
def mover (w : World) (path : Str) (config : tomlConfig) : Except Panic (Exit × World) :=
  let w := w.log (Call.mover path)
  let destPath := destPath path config
  let destName := destName path config
  match createDirectory w destPath config with
  | .error p => .error p
  | .ok (false, w1) => .ok (Exit.noDirectory, w1)
  | .ok (true, w1) =>
    let (r, w2) := os.Stat w1 destName
    if chkFileExist destName (errOf r) && !config.Owrite then .ok (Exit.alreadyExists, w2)
    else
      match os.Rename w2 path destName with
      | (some _, w3) => .ok (Exit.renameFailed, w3)
      | (none, w3) =>
        if config.Uid ≠ -1 ∧ config.Gid ≠ -1 then
          match os.Chown w3 destName config.Uid config.Gid with
          | (some _, w4) => .ok (Exit.chownFailed, w4)
          | (none, w4) => .ok (Exit.moved, w4)
        else .ok (Exit.moved, w3)

/-- The callback of the walk of the initial sweep in `main`: the mode of the file
information is read whatever the error is. -/
def sweepWalkFn (s : World × List Str) (path : Str) (ofinfo : Except Errno Node) :
    Except Panic (Option Errno × (World × List Str)) :=
  match ofinfo with
  | .error _ => .error Panic.nilDereference
  | .ok info => if info.kind = Kind.regular then .ok (none, (s.1, s.2 ++ [path])) else .ok (none, s)

/-- The first half of the initial sweep in `main`: the list `lsfile`. -/
def sweepList (w : World) (config : tomlConfig) : Except Panic (List Str × World) :=
  if config.Recurs then
    match filepath.Walk (fun s => s.1.fs) config.Source sweepWalkFn
        (w.log (Call.walk config.Source), []) with
    | .error p => .error p
    | .ok (_, s) => .ok (s.2, s.1)
  else
    let (ls, w1) := ioutil.ReadDir w config.Source
    match ls with
    | .error _ => .ok ([], w1)
    | .ok entries =>
      .ok ((entries.filter (fun f => decide (f.2.kind ≠ Kind.dir))).map
        (fun f => filepath.Join [config.Source, f.1]), w1)

/-- The second half of the initial sweep in `main`: the loop over `lsfile`. -/
def sweepLoop (MatchString : Str → Str → Bool) (config : tomlConfig) :
    List Str → World → Except Panic World
  | [], w => .ok w
  | f :: rest, w =>
    if !chkFileRegexp MatchString f config.Regexp then sweepLoop MatchString config rest w
    else
      let (r, w1) := os.Stat w f
      if !chkFileExist f (errOf r) then sweepLoop MatchString config rest w1
      else
        match mover w1 f config with
        | .error p => .error p
        | .ok (_, w2) => sweepLoop MatchString config rest w2

/-- The initial sweep of `main`. -/
def initialSweep (MatchString : Str → Str → Bool) (w : World) (config : tomlConfig) :
    Except Panic World :=
  if config.Movall then
    match sweepList w config with
    | .error p => .error p
    | .ok (lsfile, w1) => sweepLoop MatchString config lsfile w1
  else .ok w

/-- The start of watching in `main`. -/
def startWatching (w : World) (config : tomlConfig) : Except Panic World :=
  if config.Recurs then
    match filepath.Walk World.fs config.Source walkWatcher (w.log (Call.walk config.Source)) with
    | .error p => .error p
    | .ok (_, w1) => .ok w1
  else .ok (watcher.Add w config.Source).2

/-- The operation `main` reacts to (`fsop`); zero when `Fileop` is none of the five names. -/
def fsop (config : tomlConfig) : Nat :=
  if config.Fileop = "CREATE".toList then fsnotify.Create
  else if config.Fileop = "WRITE".toList then fsnotify.Write
  else if config.Fileop = "REMOVE".toList then fsnotify.Remove
  else if config.Fileop = "RENAME".toList then fsnotify.Rename
  else if config.Fileop = "CHMOD".toList then fsnotify.Chmod
  else 0

/-- The task `main` starts for an event, run to its end. -/
def eventTask (MatchString : Str → Str → Bool) (w : World) (config : tomlConfig)
    (event : fsnotify.Event) : Except Panic World :=
  let w := w.log (Call.task event.Name)
  let (r, w1) := os.Stat w event.Name
  if errOf r ≠ none ∧ !chkFileExist event.Name (errOf r) then .ok w1
  else
    let (fileLstat, w2) := os.Lstat w1 event.Name
    match fileLstat with
    | .error _ => .error Panic.nilDereference
    | .ok info =>
      if info.kind = Kind.symlink then .ok w2
      else if info.kind = Kind.dir then
        if config.Recurs then .ok (watcher.Add w2 event.Name).2 else .ok w2
      else if info.kind = Kind.regular then
        if !chkFileRegexp MatchString event.Name config.Regexp then .ok w2
        else
          let w3 := w2.log (Call.sleep config.Delay)
          let (r3, w4) := os.Stat w3 event.Name
          if !chkFileExist event.Name (errOf r3) then .ok w4
          else
            match mover w4 event.Name config with
            | .error p => .error p
            | .ok (_, w5) => .ok w5
      else .ok w2

/-- One round of the loop of `main` on an event of the watcher. -/
def handleEvent (MatchString : Str → Str → Bool) (w : World) (config : tomlConfig)
    (event : fsnotify.Event) : Except Panic World :=
  let r := if event.Op &&& fsop config ≠ 0 then eventTask MatchString w config event else .ok w
  match r with
  | .error p => .error p
  | .ok w1 => if event.Op &&& fsnotify.Remove ≠ 0 then .ok (watcher.Remove w1 event.Name) else .ok w1

/-! ## Concrete filesystems and configurations -/

namespace Sample

/-- A directory owned by `uid:gid`. -/
def dirNode (uid gid : Int) : Node :=
  { kind := Kind.dir, uid := uid, gid := gid, data := [], target := [] }

/-- A regular file owned by `uid:gid`. -/
def fileNode (uid gid : Int) (data : List Nat) : Node :=
  { kind := Kind.regular, uid := uid, gid := gid, data := data, target := [] }

/-- A symbolic link owned by `uid:gid`. -/
def linkNode (uid gid : Int) (target : Str) : Node :=
  { kind := Kind.symlink, uid := uid, gid := gid, data := [], target := target }

/-- A process running as root on the files given, with nothing watched and no call made. -/
def world (fs : FS) : World :=
  { fs := fs, watched := [], trace := [], euid := 0, egid := 0 }

/-- Source `/s`, destination `/d`, reacting to `CREATE`, owner `1000:1000`. -/
def config : tomlConfig :=
  { Movall := true, Source := "/s".toList, Destin := "/d".toList, Recurs := true,
    Fileop := "CREATE".toList, Regexp := [], Logtag := [], Syslog := false,
    Owrite := false, Delay := 0, Uid := 1000, Gid := 1000 }

/-- The configuration `config` with overwriting enabled. -/
def overwriteConfig : tomlConfig :=
  { config with Owrite := true }

/-- Source `/src`, destination `/dst`, no change of owner. -/
def rootConfig : tomlConfig :=
  { Movall := false, Source := "/src".toList, Destin := "/dst".toList, Recurs := true,
    Fileop := "CREATE".toList, Regexp := [], Logtag := [], Syslog := false,
    Owrite := false, Delay := 0, Uid := -1, Gid := -1 }

/-- The configuration `config` with overwriting enabled and the source root as
destination root. -/
def sameRootConfig : tomlConfig :=
  { config with Destin := "/s".toList, Owrite := true }

/-- The configuration `config` with the owner ids `4294967295`. -/
def maxIdConfig : tomlConfig :=
  { config with Uid := 4294967295, Gid := 4294967295 }

/-- A pattern every path matches. -/
def anyPath (_re _path : Str) : Bool := true

/-- The file `/s/a/f` to move while `/d/a` is a regular file. -/
def conflictFS : FS :=
  [([], dirNode 0 0), (["s".toList], dirNode 0 0), (["s".toList, "a".toList], dirNode 0 0),
    (["s".toList, "a".toList, "f".toList], fileNode 0 0 [1]),
    (["d".toList], dirNode 0 0), (["d".toList, "a".toList], fileNode 0 0 [2])]

/-- A symbolic link `/s/l` to the regular file `/t`. -/
def linkFS : FS :=
  [([], dirNode 0 0), (["s".toList], dirNode 0 0), (["d".toList], dirNode 0 0),
    (["t".toList], fileNode 0 0 [7]), (["s".toList, "l".toList], linkNode 0 0 "/t".toList)]

/-- The file `/s/f` to move while `/d/f` exists. -/
def overwriteFS : FS :=
  [([], dirNode 0 0), (["s".toList], dirNode 0 0), (["s".toList, "f".toList], fileNode 0 0 [1]),
    (["d".toList], dirNode 0 0), (["d".toList, "f".toList], fileNode 5 5 [2])]

/-- The file `/s/a/b/f` to move while `/d/a` is a regular file. -/
def deepConflictFS : FS :=
  [([], dirNode 0 0), (["s".toList], dirNode 0 0), (["s".toList, "a".toList], dirNode 0 0),
    (["s".toList, "a".toList, "b".toList], dirNode 0 0),
    (["s".toList, "a".toList, "b".toList, "f".toList], fileNode 0 0 [1]),
    (["d".toList], dirNode 0 0), (["d".toList, "a".toList], fileNode 0 0 [2])]

/-- A filesystem without the source directory `/s`. -/
def noSourceFS : FS :=
  [([], dirNode 0 0), (["d".toList], dirNode 0 0)]

/-- The configuration `config` with a shallow initial sweep. -/
def shallowConfig : tomlConfig :=
  { config with Recurs := false }

/-- The destination directory `/d/a` exists and holds the file `/d/a/old` of user 7. -/
def partialFS : FS :=
  [([], dirNode 0 0), (["d".toList], dirNode 0 0), (["d".toList, "a".toList], dirNode 0 0),
    (["d".toList, "a".toList, "old".toList], fileNode 7 7 [3])]

/-- The file `/s/a/f` to move while the destination root `/d` does not exist. -/
def noDestinFS : FS :=
  [([], dirNode 0 0), (["s".toList], dirNode 0 0), (["s".toList, "a".toList], dirNode 0 0),
    (["s".toList, "a".toList, "f".toList], fileNode 0 0 [1])]

/-- The file `/s/a/b/f` to move while the destination root `/d` is empty. -/
def deepFS : FS :=
  [([], dirNode 0 0), (["s".toList], dirNode 0 0), (["s".toList, "a".toList], dirNode 0 0),
    (["s".toList, "a".toList, "b".toList], dirNode 0 0),
    (["s".toList, "a".toList, "b".toList, "f".toList], fileNode 0 0 [1]),
    (["d".toList], dirNode 0 0)]

/-- The world after `mover` has moved `/s/a/b/f` in `deepFS`. -/
def deepMoved : World :=
  match mover (world deepFS) "/s/a/b/f".toList config with
  | .ok r => r.2
  | .error _ => world []

end Sample

/-! ## The path functions on sample paths -/

section samples
open filepath

/-- The models of `Clean`, `Join`, `Dir`, `Base` and `Rel` on sample paths, with the
results of the Go functions. -/
theorem filepath_samples :
    Clean "".toList = ".".toList ∧
      Clean "/../a//b/./c/..".toList = "/a/b".toList ∧
      Clean "../../a/../..".toList = "../../..".toList ∧
      Clean "a/b/../../..".toList = "..".toList ∧
      Clean "/".toList = "/".toList ∧
      Join ["".toList, "a".toList] = "a".toList ∧
      Join ["".toList, "".toList] = [] ∧
      Join ["/dst".toList, ".".toList] = "/dst".toList ∧
      Join ["/".toList, "a".toList] = "/a".toList ∧
      Dir "a/b/c".toList = "a/b".toList ∧
      Dir "a".toList = ".".toList ∧
      Dir "/a".toList = "/".toList ∧
      Dir "".toList = ".".toList ∧
      Base "".toList = ".".toList ∧
      Base "/".toList = "/".toList ∧
      Base "/a/b/".toList = "b".toList ∧
      Base "a/..".toList = "..".toList ∧
      Rel "/src".toList "/src/a/b".toList = some "a/b".toList ∧
      Rel "/".toList "/a/b".toList = some "a/b".toList ∧
      Rel ".".toList "a/b".toList = some "a/b".toList ∧
      Rel "/a/b".toList "/a".toList = some "..".toList ∧
      Rel "/a/b/c".toList "/a/x/y".toList = some "../../x/y".toList ∧
      Rel "/a".toList "/a".toList = some ".".toList ∧
      Rel "/a".toList "b".toList = none ∧
      Rel "..".toList "a".toList = none ∧
      Rel "../a".toList "../b".toList = some "../b".toList ∧
      Rel "/src".toList "/other/x".toList = some "../other/x".toList := by
  decide

end samples

/-! ## Path lemmas -/

namespace strings

theorem Split_ne_nil (s : Str) : Split s ≠ [] := by
  cases s with
  | nil => simp [Split]
  | cons c cs =>
    by_cases h : c = '/'
    · simp [Split, h]
    · cases hs : Split cs <;> simp [Split, h, hs]

theorem Split_append_sep (a b : Str) : Split (a ++ '/' :: b) = Split a ++ Split b := by
  induction a with
  | nil => simp [Split]
  | cons c cs ih =>
    by_cases h : c = '/'
    · simp [Split, h, ih]
    · have hne := Split_ne_nil cs
      cases hs : Split cs with
      | nil => exact absurd hs hne
      | cons w ws => simp [Split, h, ih, hs]

theorem Split_noSep (w : Str) (h : '/' ∉ w) : Split w = [w] := by
  induction w with
  | nil => simp [Split]
  | cons c cs ih =>
    have hc : c ≠ '/' := fun e => h (by simp [e])
    have hcs : '/' ∉ cs := fun e => h (by simp [e])
    simp [Split, hc, ih hcs]

theorem mem_Split_noSep (s : Str) : ∀ w ∈ Split s, '/' ∉ w := by
  induction s with
  | nil => simp [Split]
  | cons c cs ih =>
    by_cases h : c = '/'
    · intro w hw
      simp only [Split, h, if_true, List.mem_cons] at hw
      rcases hw with rfl | hw
      · simp
      · exact ih w hw
    · have hne := Split_ne_nil cs
      cases hs : Split cs with
      | nil => exact absurd hs hne
      | cons v vs =>
        intro w hw
        simp only [Split, h, if_false, hs, List.mem_cons] at hw
        rw [hs] at ih
        rcases hw with rfl | hw
        · have := ih v (by simp)
          intro hm
          simp only [List.mem_cons] at hm
          rcases hm with e | e
          · exact h e.symm
          · exact this e
        · exact ih w (by simp [hw])

theorem Join_cons_cons (w v : Str) (ws : List Str) :
    Join (w :: v :: ws) = w ++ '/' :: Join (v :: ws) := rfl

theorem Join_append_single (ws : List Str) (l : Str) (h : ws ≠ []) :
    Join (ws ++ [l]) = Join ws ++ '/' :: l := by
  induction ws with
  | nil => exact absurd rfl h
  | cons w ws ih =>
    cases ws with
    | nil => simp [Join]
    | cons v vs =>
      have := ih (by simp)
      simp only [List.cons_append] at this ⊢
      rw [Join_cons_cons, this, Join_cons_cons]
      simp

theorem Split_Join (ws : List Str) (hne : ws ≠ []) (h : ∀ w ∈ ws, '/' ∉ w) :
    Split (Join ws) = ws := by
  induction ws with
  | nil => exact absurd rfl hne
  | cons w ws ih =>
    cases ws with
    | nil => simpa [Join] using Split_noSep w (h w (by simp))
    | cons v vs =>
      rw [Join_cons_cons, Split_append_sep, Split_noSep w (h w (by simp)),
        ih (by simp) (fun x hx => h x (by simp [hx]))]
      rfl

end strings
namespace filepath

theorem properName_iff (c : Str) :
    properName c = true ↔ c ≠ [] ∧ c ≠ ['.'] ∧ c ≠ ['.', '.'] ∧ '/' ∉ c := by
  simp [properName]

theorem cleanStep_proper (rd : Bool) (stk : List Str) (c : Str) (h : properName c = true) :
    cleanStep rd stk c = c :: stk := by
  obtain ⟨h1, h2, h3, _⟩ := (properName_iff c).1 h
  simp [cleanStep, h1, h2, h3]

theorem foldl_cleanStep_proper (rd : Bool) (cs : List Str) (h : ∀ c ∈ cs, properName c = true) :
    ∀ stk, cs.foldl (cleanStep rd) stk = cs.reverse ++ stk := by
  induction cs with
  | nil => intro stk; rfl
  | cons c cs ih =>
    intro stk
    rw [List.foldl_cons, cleanStep_proper rd stk c (h c (by simp)),
      ih (fun x hx => h x (by simp [hx]))]
    simp

theorem ValidStack.nil (rd : Bool) : ValidStack rd [] :=
  ⟨[], 0, rfl, by simp, fun _ => rfl⟩

theorem ValidStack.proper_append {rd : Bool} {stk : List Str} (h : ValidStack rd stk)
    (cs : List Str) (hcs : ∀ c ∈ cs, properName c = true) : ValidStack rd (cs ++ stk) := by
  obtain ⟨ns, n, rfl, hns, hn⟩ := h
  refine ⟨cs ++ ns, n, by simp, ?_, hn⟩
  intro c hc
  rcases List.mem_append.1 hc with h | h
  · exact hcs c h
  · exact hns c h

theorem ValidStack.of_proper (rd : Bool) (cs : List Str) (hcs : ∀ c ∈ cs, properName c = true) :
    ValidStack rd cs := by
  simpa using (ValidStack.nil rd).proper_append cs hcs

theorem ValidStack.step {rd : Bool} {stk : List Str} (h : ValidStack rd stk) (c : Str)
    (hc : '/' ∉ c) : ValidStack rd (cleanStep rd stk c) := by
  by_cases h1 : c = [] ∨ c = ['.']
  · simpa [cleanStep, h1] using h
  by_cases h2 : c = ['.', '.']
  · subst h2
    obtain ⟨ns, n, rfl, hns, hn⟩ := h
    cases ns with
    | nil =>
      cases n with
      | zero =>
        cases rd
        · exact ⟨[], 1, by simp [cleanStep], by simp, by simp⟩
        · exact ⟨[], 0, by simp [cleanStep], by simp, by simp⟩
      | succ m =>
        cases rd
        · exact ⟨[], m + 2, by simp [cleanStep, List.replicate_succ], by simp, by simp⟩
        · exact absurd (hn rfl) (by simp)
    | cons t ns =>
      have ht : properName t = true := hns t (by simp)
      have ht3 : t ≠ ['.', '.'] := ((properName_iff t).1 ht).2.2.1
      refine ⟨ns, n, by simp [cleanStep, ht3], fun x hx => hns x (by simp [hx]), hn⟩
  · have hp : properName c = true := by
      rw [properName_iff]
      push_neg at h1
      exact ⟨h1.1, h1.2, h2, hc⟩
    rw [cleanStep_proper rd stk c hp]
    exact h.proper_append [c] (by simpa using hp)

theorem ValidStack.foldl {rd : Bool} (cs : List Str) (hcs : ∀ c ∈ cs, '/' ∉ c) :
    ∀ stk, ValidStack rd stk → ValidStack rd (cs.foldl (cleanStep rd) stk) := by
  induction cs with
  | nil => intro stk h; exact h
  | cons c cs ih =>
    intro stk h
    exact ih (fun x hx => hcs x (by simp [hx])) _ (h.step c (hcs c (by simp)))

theorem cleanStack_valid (rd : Bool) (p : Str) : ValidStack rd (cleanStack rd p) :=
  ValidStack.foldl _ (strings.mem_Split_noSep p) _ (ValidStack.nil rd)

theorem ValidStack.noSep {rd : Bool} {stk : List Str} (h : ValidStack rd stk) :
    ∀ c ∈ stk, '/' ∉ c := by
  obtain ⟨ns, n, rfl, hns, _⟩ := h
  intro c hc
  rcases List.mem_append.1 hc with h | h
  · exact ((properName_iff c).1 (hns c h)).2.2.2
  · rw [List.eq_of_mem_replicate h]; decide

theorem ValidStack.ne_nil {rd : Bool} {stk : List Str} (h : ValidStack rd stk) :
    ∀ c ∈ stk, c ≠ [] ∧ c ≠ ['.'] ∧ c.head? ≠ some '/' := by
  obtain ⟨ns, n, rfl, hns, _⟩ := h
  intro c hc
  rcases List.mem_append.1 hc with h | h
  · obtain ⟨h1, h2, _, h4⟩ := (properName_iff c).1 (hns c h)
    refine ⟨h1, h2, ?_⟩
    cases c with
    | nil => simp
    | cons a as =>
      simp only [List.head?_cons, ne_eq, Option.some.injEq]
      intro e
      exact h4 (by simp [e])
  · rw [List.eq_of_mem_replicate h]; decide

theorem foldl_cleanStep_dotdot (n : Nat) :
    ∀ m, (List.replicate n ['.', '.']).foldl (cleanStep false) (List.replicate m ['.', '.'])
      = List.replicate (n + m) ['.', '.'] := by
  induction n with
  | zero => intro m; simp
  | succ n ih =>
    intro m
    rw [List.replicate_succ, List.foldl_cons]
    have : cleanStep false (List.replicate m ['.', '.']) ['.', '.']
        = List.replicate (m + 1) ['.', '.'] := by
      cases m with
      | zero => simp [cleanStep]
      | succ k => simp [cleanStep, List.replicate_succ]
    rw [this, ih (m + 1)]
    congr 1
    omega

theorem foldl_reverse_valid {rd : Bool} {stk : List Str} (h : ValidStack rd stk) :
    stk.reverse.foldl (cleanStep rd) [] = stk := by
  obtain ⟨ns, n, rfl, hns, hn⟩ := h
  rw [List.reverse_append, List.foldl_append, List.reverse_replicate]
  have h0 : (List.replicate n ['.', '.']).foldl (cleanStep rd) [] = List.replicate n ['.', '.'] := by
    cases rd
    · simpa using foldl_cleanStep_dotdot n 0
    · simp [hn rfl]
  rw [h0, foldl_cleanStep_proper rd ns.reverse (by simpa using hns)]
  simp

theorem cleanStep_nil (rd : Bool) (stk : List Str) : cleanStep rd stk [] = stk := by
  simp [cleanStep]

theorem cleanStep_dot (rd : Bool) (stk : List Str) : cleanStep rd stk ['.'] = stk := by
  simp [cleanStep]

theorem cleanStack_render {rd : Bool} {stk : List Str} (h : ValidStack rd stk) :
    cleanStack rd (render rd stk) = stk := by
  unfold cleanStack render
  by_cases hs : stk = []
  · subst hs
    cases rd <;> simp [strings.Split, strings.Join, cleanStep]
  · have hsp : strings.Split (strings.Join stk.reverse) = stk.reverse :=
      strings.Split_Join _ (by simpa using hs) (by simpa using h.noSep)
    cases rd
    · simp only [hs, if_false, Bool.false_eq_true, hsp]
      exact foldl_reverse_valid h
    · simp only [if_true]
      have : strings.Split ('/' :: strings.Join stk.reverse) = [] :: stk.reverse := by
        simp [strings.Split, hsp]
      rw [this, List.foldl_cons, cleanStep_nil]
      exact foldl_reverse_valid h

theorem head_Join (w : Str) (ws : List Str) (hw : w ≠ []) :
    (strings.Join (w :: ws)).head? = w.head? := by
  cases ws with
  | nil => rfl
  | cons v vs =>
    rw [strings.Join_cons_cons]
    cases w with
    | nil => exact absurd rfl hw
    | cons a as => rfl

theorem isRooted_render {rd : Bool} {stk : List Str} (h : ValidStack rd stk) :
    isRooted (render rd stk) = rd := by
  cases rd
  · by_cases hs : stk = []
    · subst hs; simp [render, isRooted]
    · simp only [render, hs, if_false, Bool.false_eq_true, isRooted]
      have hr : stk.reverse ≠ [] := by simpa using hs
      obtain ⟨w, ws, hw⟩ := List.exists_cons_of_ne_nil hr
      have hmem : w ∈ stk := by
        have : w ∈ stk.reverse := by rw [hw]; simp
        simpa using this
      obtain ⟨h1, _, h3⟩ := h.ne_nil w hmem
      rw [hw, head_Join w ws h1]
      simpa using h3
  · simp [render, isRooted]

theorem render_ne_nil (rd : Bool) (stk : List Str) (h : ValidStack rd stk) : render rd stk ≠ [] := by
  cases rd
  · by_cases hs : stk = []
    · subst hs; simp [render]
    · intro e
      have := isRooted_render h
      have hr : stk.reverse ≠ [] := by simpa using hs
      obtain ⟨w, ws, hw⟩ := List.exists_cons_of_ne_nil hr
      have hmem : w ∈ stk := by
        have : w ∈ stk.reverse := by rw [hw]; simp
        simpa using this
      obtain ⟨h1, _, _⟩ := h.ne_nil w hmem
      have hh := head_Join w ws h1
      simp only [render, hs, if_false, Bool.false_eq_true, hw] at e
      rw [e] at hh
      cases w with
      | nil => exact h1 rfl
      | cons a as => simp at hh
  · simp [render]

theorem Clean_render {rd : Bool} {stk : List Str} (h : ValidStack rd stk) :
    Clean (render rd stk) = render rd stk := by
  unfold Clean
  rw [isRooted_render h, cleanStack_render h]

theorem Clean_eq (p : Str) : Clean p = render (isRooted p) (cleanStack (isRooted p) p) := rfl

theorem Clean_Clean (p : Str) : Clean (Clean p) = Clean p :=
  Clean_render (cleanStack_valid _ p)

end filepath
namespace filepath

theorem isRooted_append (a b : Str) (h : a ≠ []) : isRooted (a ++ b) = isRooted a := by
  cases a with
  | nil => exact absurd rfl h
  | cons c cs => rfl

theorem cleanStack_append_sep (rd : Bool) (a b : Str) :
    cleanStack rd (a ++ '/' :: b) = (strings.Split b).foldl (cleanStep rd) (cleanStack rd a) := by
  unfold cleanStack
  rw [strings.Split_append_sep, List.foldl_append]

/-- Folding the elements of a rendered stack of proper names. -/
theorem foldl_Split_render (rd : Bool) (cs : List Str) (hcs : ∀ c ∈ cs, properName c = true)
    (stk : List Str) :
    (strings.Split (render false cs.reverse)).foldl (cleanStep rd) stk = cs.reverse ++ stk := by
  by_cases hs : cs = []
  · subst hs
    simp [render, strings.Split, cleanStep]
  · have hne : cs.reverse ≠ [] := by simpa using hs
    have : strings.Split (render false cs.reverse) = cs := by
      simp only [render, hne, if_false, Bool.false_eq_true, List.reverse_reverse]
      exact strings.Split_Join cs hs (fun w hw => ((properName_iff w).1 (hcs w hw)).2.2.2)
    rw [this, foldl_cleanStep_proper rd cs hcs]

theorem Join_pair (B : Str) (cs : List Str) (hcs : ∀ c ∈ cs, properName c = true) :
    Join [B, render false cs.reverse]
      = render (isRooted B) (cs.reverse ++ cleanStack (isRooted B) B) := by
  have hv : ValidStack false cs.reverse := ValidStack.of_proper _ _ (by simpa using hcs)
  have hx : render false cs.reverse ≠ [] := render_ne_nil _ _ hv
  by_cases hB : B = []
  · subst hB
    simp only [Join, if_true, hx, if_false, strings.Join]
    rw [Clean_render hv]
    simp [isRooted, cleanStack, strings.Split, cleanStep]
  · simp only [Join, hB, if_false]
    rw [strings.Join_cons_cons]
    simp only [strings.Join]
    rw [Clean_eq, isRooted_append _ _ hB, cleanStack_append_sep, foldl_Split_render _ cs hcs]

theorem Join_render {rd : Bool} {stk : List Str} (h : ValidStack rd stk) (cs : List Str)
    (hcs : ∀ c ∈ cs, properName c = true) :
    Join [render rd stk, render false cs.reverse] = render rd (cs.reverse ++ stk) := by
  rw [Join_pair _ cs hcs, isRooted_render h, cleanStack_render h]

theorem render_proper (cs : List Str) (h : cs ≠ []) : render false cs.reverse = strings.Join cs := by
  simp [render, h]

theorem takeWhile_noSep (w rest : Str) (h : '/' ∉ w) :
    (w ++ '/' :: rest).takeWhile (fun c => c != '/') = w := by
  induction w with
  | nil => simp
  | cons c cs ih =>
    have hc : c ≠ '/' := fun e => h (by simp [e])
    have hcs : '/' ∉ cs := fun e => h (by simp [e])
    have hb : (c != '/') = true := by simp [hc]
    simp [List.takeWhile_cons, hb, ih hcs]

theorem dropWhile_noSep (w rest : Str) (h : '/' ∉ w) :
    (w ++ '/' :: rest).dropWhile (fun c => c != '/') = '/' :: rest := by
  induction w with
  | nil => simp
  | cons c cs ih =>
    have hc : c ≠ '/' := fun e => h (by simp [e])
    have hcs : '/' ∉ cs := fun e => h (by simp [e])
    have hb : (c != '/') = true := by simp [hc]
    simp [List.dropWhile_cons, hb, ih hcs]

theorem takeWhile_noSep_all (w : Str) (h : '/' ∉ w) :
    w.takeWhile (fun c => c != '/') = w := by
  induction w with
  | nil => simp
  | cons c cs ih =>
    have hc : c ≠ '/' := fun e => h (by simp [e])
    have hcs : '/' ∉ cs := fun e => h (by simp [e])
    have hb : (c != '/') = true := by simp [hc]
    simp [List.takeWhile_cons, hb, ih hcs]

theorem dropWhile_noSep_all (w : Str) (h : '/' ∉ w) :
    w.dropWhile (fun c => c != '/') = [] := by
  induction w with
  | nil => simp
  | cons c cs ih =>
    have hc : c ≠ '/' := fun e => h (by simp [e])
    have hcs : '/' ∉ cs := fun e => h (by simp [e])
    have hb : (c != '/') = true := by simp [hc]
    simp [List.dropWhile_cons, hb, ih hcs]

theorem Join_ne_nil (w : Str) (ws : List Str) (hw : w ≠ []) : strings.Join (w :: ws) ≠ [] := by
  intro e
  have := head_Join w ws hw
  rw [e] at this
  cases w with
  | nil => exact hw rfl
  | cons a as => simp at this

theorem relLoop_nil_base (fuel : Nat) (t : Str) : relLoop fuel [] t = ⟨[], [], t⟩ := by
  cases fuel <;> simp [relLoop]

/-- The loop of `Rel` on a base whose elements all start the target. -/
theorem relLoop_common (rc : List Str) (hrc : rc ≠ []) (cs : List Str) :
    (∀ c ∈ cs, c ≠ [] ∧ '/' ∉ c) → ∀ fuel, cs.length ≤ fuel →
      relLoop fuel (strings.Join cs) (strings.Join (cs ++ rc)) = ⟨[], [], strings.Join rc⟩ := by
  induction cs with
  | nil => intro _ fuel _; simpa [strings.Join] using relLoop_nil_base fuel _
  | cons c cs ih =>
    intro hcs fuel hf
    obtain ⟨hc1, hc2⟩ := hcs c (by simp)
    obtain ⟨r0, rs, hr⟩ := List.exists_cons_of_ne_nil hrc
    cases fuel with
    | zero => simp at hf
    | succ fuel =>
      cases cs with
      | nil =>
        have hb : strings.Join [c] = c := rfl
        have ht : strings.Join ([c] ++ rc) = c ++ '/' :: strings.Join rc := by
          rw [hr]; rfl
        rw [hb, ht]
        unfold relLoop
        have hne : ¬ (c = [] ∨ c ++ '/' :: strings.Join rc = []) := by simp [hc1]
        simp only [hne, if_false, takeWhile_noSep c _ hc2, takeWhile_noSep_all c hc2,
          dropWhile_noSep c _ hc2, dropWhile_noSep_all c hc2, ne_eq, not_true_eq_false]
        simpa using relLoop_nil_base fuel _
      | cons d ds =>
        have hb : strings.Join (c :: d :: ds) = c ++ '/' :: strings.Join (d :: ds) := rfl
        have ht : strings.Join (c :: d :: ds ++ rc)
            = c ++ '/' :: strings.Join (d :: ds ++ rc) := rfl
        rw [hb, ht]
        unfold relLoop
        have hne : ¬ (c ++ '/' :: strings.Join (d :: ds) = [] ∨
            c ++ '/' :: strings.Join (d :: ds ++ rc) = []) := by simp
        simp only [hne, if_false, takeWhile_noSep c _ hc2, dropWhile_noSep c _ hc2, ne_eq,
          not_true_eq_false, List.drop_one, List.tail_cons]
        exact ih (fun x hx => hcs x (by simp [hx])) fuel (by simpa using hf)

theorem length_le_Join (cs : List Str) (h : ∀ c ∈ cs, c ≠ []) :
    cs.length ≤ (strings.Join cs).length + 1 := by
  induction cs with
  | nil => simp
  | cons c cs ih =>
    cases cs with
    | nil => simp
    | cons d ds =>
      rw [strings.Join_cons_cons]
      have := ih (fun x hx => h x (by simp [hx]))
      have hc : 0 < c.length := List.length_pos.2 (h c (by simp))
      simp only [List.length_cons, List.length_append] at this ⊢
      omega

end filepath
namespace filepath

theorem render_injective {rd : Bool} {s t : List Str} (hs : ValidStack rd s) (ht : ValidStack rd t)
    (h : render rd s = render rd t) : s = t := by
  have := congrArg (cleanStack rd) h
  rwa [cleanStack_render hs, cleanStack_render ht] at this

theorem render_true (stk : List Str) : render true stk = '/' :: strings.Join stk.reverse := by
  simp [render]

theorem render_false (stk : List Str) (h : stk ≠ []) :
    render false stk = strings.Join stk.reverse := by
  simp [render, h]

/-- `Rel` of a path that extends the base by proper names gives these names back. -/
theorem Rel_extend {rd : Bool} {S : List Str} (hS : ValidStack rd S) (cs : List Str)
    (hne : cs ≠ []) (hcs : ∀ c ∈ cs, properName c = true) (B : Str)
    (hB : Clean B = render rd S) :
    Rel B (render rd (cs.reverse ++ S)) = some (strings.Join cs) := by
  have hT : ValidStack rd (cs.reverse ++ S) := hS.proper_append _ (by simpa using hcs)
  have hneq : render rd (cs.reverse ++ S) ≠ render rd S := by
    intro e
    have := congrArg List.length (render_injective hT hS e)
    simp only [List.length_append, List.length_reverse] at this
    have : cs.length = 0 := by omega
    exact hne (List.length_eq_zero.1 this)
  have helem : ∀ c ∈ S.reverse, c ≠ [] ∧ '/' ∉ c := by
    intro c hc
    have hc : c ∈ S := by simpa using hc
    exact ⟨(hS.ne_nil c hc).1, hS.noSep c hc⟩
  have hlen : S.reverse.length ≤ (strings.Join S.reverse).length + 1 :=
    length_le_Join _ (fun c hc => (helem c hc).1)
  unfold Rel
  simp only [hB, Clean_render hT, hneq, if_false]
  cases rd with
  | true =>
    have hb : render true S ≠ ['.'] := by simp [render]
    simp only [hb, if_false, isRooted_render hS, isRooted_render hT, ne_eq, not_true_eq_false]
    have hloop : relLoop ((render true S).length + 1) (render true S)
        (render true (cs.reverse ++ S)) = ⟨[], [], strings.Join cs⟩ := by
      rw [render_true, render_true]
      simp only [List.reverse_append, List.reverse_reverse, List.length_cons]
      unfold relLoop
      simp only [reduceCtorEq, or_self, if_false, List.takeWhile_cons, bne_self_eq_false,
        Bool.false_eq_true, ne_eq, not_true_eq_false, List.dropWhile_cons, List.drop_one,
        List.tail_cons]
      exact relLoop_common cs hne S.reverse helem _ hlen
    rw [hloop]
    simp
  | false =>
    by_cases hSn : S = []
    · subst hSn
      have hb : render false [] = ['.'] := by simp [render]
      simp only [hb, if_true, List.append_nil]
      have ht := isRooted_render hT
      simp only [List.append_nil] at ht
      simp only [ht, isRooted, List.head?_nil, ne_eq, List.length_nil, zero_add]
      rw [relLoop_nil_base]
      have : render false cs.reverse = strings.Join cs := render_proper cs hne
      rw [this] at ht
      have ht2 : ¬ (strings.Join cs).head? = some '/' := by simpa [isRooted] using ht
      simp [this, ht2]
    · have hb : render false S ≠ ['.'] := by
        intro e
        have := cleanStack_render hS
        rw [e] at this
        exact hSn (by rw [← this]; simp [cleanStack, strings.Split, cleanStep])
      simp only [hb, if_false, isRooted_render hS, isRooted_render hT, ne_eq, not_true_eq_false]
      have hloop : relLoop ((render false S).length + 1) (render false S)
          (render false (cs.reverse ++ S)) = ⟨[], [], strings.Join cs⟩ := by
        rw [render_false S hSn, render_false _ (by simp [hSn])]
        simp only [List.reverse_append, List.reverse_reverse]
        exact relLoop_common cs hne S.reverse helem _ hlen
      rw [hloop]
      simp

theorem dirPart_noSep (l : Str) (h : '/' ∉ l) : dirPart l = [] := by
  unfold dirPart
  rw [dropWhile_noSep_all _ (by simpa using h)]
  rfl

theorem dirPart_append (a l : Str) (h : '/' ∉ l) : dirPart (a ++ '/' :: l) = a ++ ['/'] := by
  unfold dirPart
  have : (a ++ '/' :: l).reverse = l.reverse ++ '/' :: a.reverse := by simp
  rw [this, dropWhile_noSep _ _ (by simpa using h)]
  simp

theorem lastPart_noSep (l : Str) (h : '/' ∉ l) : lastPart l = l := by
  unfold lastPart
  rw [takeWhile_noSep_all _ (by simpa using h)]
  simp

theorem lastPart_append (a l : Str) (h : '/' ∉ l) : lastPart (a ++ '/' :: l) = l := by
  unfold lastPart
  have : (a ++ '/' :: l).reverse = l.reverse ++ '/' :: a.reverse := by simp
  rw [this, takeWhile_noSep _ _ (by simpa using h)]
  simp

/-- `Dir` of a path of proper names: the names but the last. -/
theorem Dir_Join (init : List Str) (l : Str) (hi : ∀ c ∈ init, properName c = true)
    (hl : properName l = true) :
    Dir (strings.Join (init ++ [l])) = render false init.reverse := by
  have hl4 : '/' ∉ l := ((properName_iff l).1 hl).2.2.2
  by_cases h : init = []
  · subst h
    simp only [List.nil_append, strings.Join, Dir]
    rw [dirPart_noSep l hl4]
    rfl
  · have hv : ValidStack false init.reverse := ValidStack.of_proper _ _ (by simpa using hi)
    have hne : strings.Join init ≠ [] := by
      rw [← render_proper init h]; exact render_ne_nil _ _ hv
    have hroot : isRooted (strings.Join init) = false := by
      rw [← render_proper init h]; exact isRooted_render hv
    have hstack : cleanStack false (strings.Join init) = init.reverse := by
      rw [← render_proper init h]; exact cleanStack_render hv
    unfold Dir
    rw [strings.Join_append_single init l h, dirPart_append _ _ hl4, Clean_eq,
      isRooted_append _ _ hne, hroot, cleanStack_append_sep, hstack]
    simp [strings.Split, cleanStep]

theorem render_cons (rd : Bool) (l : Str) (stk : List Str) :
    render rd (l :: stk) = l ∨ ∃ a, render rd (l :: stk) = a ++ '/' :: l := by
  cases rd with
  | true =>
    right
    rw [render_true]
    by_cases h : stk = []
    · subst h; exact ⟨[], by simp [strings.Join]⟩
    · refine ⟨'/' :: strings.Join stk.reverse, ?_⟩
      simp only [List.reverse_cons]
      rw [strings.Join_append_single _ _ (by simpa using h)]
      rfl
  | false =>
    rw [render_false _ (by simp)]
    by_cases h : stk = []
    · subst h; left; simp [strings.Join]
    · right
      refine ⟨strings.Join stk.reverse, ?_⟩
      simp only [List.reverse_cons]
      rw [strings.Join_append_single _ _ (by simpa using h)]

theorem dropWhile_sep_reverse (p l : Str) (h1 : l ≠ []) (h2 : '/' ∉ l) :
    ((p ++ l).reverse.dropWhile (fun c => c == '/')).reverse = p ++ l := by
  have hr : l.reverse ≠ [] := by simpa using h1
  obtain ⟨x, xs, hx⟩ := List.exists_cons_of_ne_nil hr
  have hxm : x ∈ l := by
    have : x ∈ l.reverse := by rw [hx]; simp
    simpa using this
  have hxs : x ≠ '/' := fun e => h2 (e ▸ hxm)
  have hb : (x == '/') = false := by simp [hxs]
  rw [List.reverse_append, hx, List.cons_append, List.dropWhile_cons, hb]
  simp only [Bool.false_eq_true, if_false]
  rw [← List.cons_append, ← hx, ← List.reverse_append, List.reverse_reverse]

theorem Base_of_last (p l : Str) (hl : properName l = true) (hp : p = l ∨ ∃ a, p = a ++ '/' :: l) :
    Base p = l := by
  obtain ⟨h1, _, _, h4⟩ := (properName_iff l).1 hl
  unfold Base
  rcases hp with rfl | ⟨a, rfl⟩
  · have := dropWhile_sep_reverse [] p h1 h4
    simp only [List.nil_append] at this
    simp only [h1, if_false, this, lastPart_noSep p h4]
  · have := dropWhile_sep_reverse (a ++ ['/']) l h1 h4
    simp only [List.append_assoc, List.singleton_append] at this
    simp only [List.append_eq_nil, reduceCtorEq, and_false, if_false, this,
      lastPart_append a l h4, h1]

theorem Base_render (rd : Bool) (l : Str) (stk : List Str) (hl : properName l = true) :
    Base (render rd (l :: stk)) = l :=
  Base_of_last _ l hl (render_cons rd l stk)

/-- The paths that lie under a root, other than the root itself, are paths of proper names. -/
theorem cleanLocal_elems (r : Str) (hr : cleanLocal r = true) (hdot : r ≠ ['.']) :
    ∃ cs : List Str, cs ≠ [] ∧ (∀ c ∈ cs, properName c = true) ∧ r = strings.Join cs := by
  simp only [cleanLocal, Bool.and_eq_true, decide_eq_true_eq, Bool.not_eq_true'] at hr
  obtain ⟨⟨hclean, hroot⟩, hhead⟩ := hr
  have hv := cleanStack_valid false r
  have hren : r = render false (cleanStack false r) := by
    have := Clean_eq r
    rw [hroot, hclean] at this
    exact this
  obtain ⟨ns, n, hstk, hns, _⟩ := hv
  have hne : cleanStack false r ≠ [] := by
    intro e
    rw [e] at hren
    exact hdot (by rw [hren]; simp [render])
  have hj : r = strings.Join (cleanStack false r).reverse :=
    hren.trans (render_false _ hne)
  have hsplit : strings.Split r = (cleanStack false r).reverse := by
    conv_lhs => rw [hj]
    exact strings.Split_Join _ (by simpa using hne)
      (by simpa using (cleanStack_valid false r).noSep)
  have hn0 : n = 0 := by
    cases n with
    | zero => rfl
    | succ m =>
      exfalso
      apply hhead
      rw [hsplit, hstk, List.reverse_append, List.reverse_replicate, List.replicate_succ]
      rfl
  subst hn0
  simp only [List.replicate_zero, List.append_nil] at hstk
  refine ⟨ns.reverse, ?_, by simpa using hns, ?_⟩
  · rw [hstk] at hne; simpa using hne
  · rw [hj, hstk]

end filepath
/-! ## The destination path of `mover` -/

section destination
open filepath

theorem Join_under (B : Str) (cs : List Str) (hne : cs ≠ [])
    (hcs : ∀ c ∈ cs, properName c = true) :
    Join [B, strings.Join cs] = render (isRooted B) (cs.reverse ++ cleanStack (isRooted B) B) := by
  rw [← render_proper cs hne]
  exact Join_pair B cs hcs

theorem Rel_under (B : Str) (cs : List Str) (hne : cs ≠ [])
    (hcs : ∀ c ∈ cs, properName c = true) :
    Rel B (Join [B, strings.Join cs]) = some (strings.Join cs) := by
  rw [Join_under B cs hne hcs]
  exact Rel_extend (cleanStack_valid _ B) cs hne hcs B (Clean_eq B)

theorem destPath_under (config : tomlConfig) (init : List Str) (l : Str)
    (hi : ∀ c ∈ init, properName c = true) (hl : properName l = true) :
    destPath (Join [config.Source, strings.Join (init ++ [l])]) config
      = render (isRooted config.Destin)
          (init.reverse ++ cleanStack (isRooted config.Destin) config.Destin) := by
  have hcs : ∀ c ∈ init ++ [l], properName c = true := by
    intro c hc
    rcases List.mem_append.1 hc with h | h
    · exact hi c h
    · simpa [List.mem_singleton.1 h] using hl
  unfold destPath
  simp only [Rel_under config.Source (init ++ [l]) (by simp) hcs, Option.getD_some,
    Dir_Join init l hi hl]
  exact Join_pair _ init hi

theorem Base_under (B : Str) (init : List Str) (l : Str)
    (hi : ∀ c ∈ init, properName c = true) (hl : properName l = true) :
    Base (Join [B, strings.Join (init ++ [l])]) = l := by
  have hcs : ∀ c ∈ init ++ [l], properName c = true := by
    intro c hc
    rcases List.mem_append.1 hc with h | h
    · exact hi c h
    · simpa [List.mem_singleton.1 h] using hl
  rw [Join_under B (init ++ [l]) (by simp) hcs]
  simp only [List.reverse_append, List.reverse_cons, List.reverse_nil, List.nil_append,
    List.singleton_append, List.cons_append]
  exact Base_render _ l _ hl

theorem destName_under (config : tomlConfig) (init : List Str) (l : Str)
    (hi : ∀ c ∈ init, properName c = true) (hl : properName l = true) :
    destName (Join [config.Source, strings.Join (init ++ [l])]) config
      = render (isRooted config.Destin)
          (l :: (init.reverse ++ cleanStack (isRooted config.Destin) config.Destin)) := by
  unfold destName
  simp only [destPath_under config init l hi hl, Base_under config.Source init l hi hl]
  have hv : ValidStack (isRooted config.Destin)
      (init.reverse ++ cleanStack (isRooted config.Destin) config.Destin) :=
    (cleanStack_valid _ _).proper_append _ (by simpa using hi)
  have := Join_render hv [l] (by simpa using hl)
  simpa [render] using this

theorem Join_three (D : Str) (init : List Str) (l : Str)
    (hi : ∀ c ∈ init, properName c = true) (hl : properName l = true) :
    Join [D, render false init.reverse, l]
      = render (isRooted D) (l :: (init.reverse ++ cleanStack (isRooted D) D)) := by
  have hv : ValidStack false init.reverse := ValidStack.of_proper _ _ (by simpa using hi)
  have hx : render false init.reverse ≠ [] := render_ne_nil _ _ hv
  have hl4 : '/' ∉ l := ((properName_iff l).1 hl).2.2.2
  by_cases hD : D = []
  · subst hD
    have hj : strings.Join [render false init.reverse, l] = render false init.reverse ++ '/' :: l := rfl
    simp only [Join, if_true, hx, if_false, hj]
    rw [Clean_eq, isRooted_append _ _ hx, isRooted_render hv, cleanStack_append_sep,
      cleanStack_render hv, strings.Split_noSep l hl4, List.foldl_cons, List.foldl_nil,
      cleanStep_proper _ _ l hl]
    simp [isRooted, cleanStack, strings.Split, cleanStep]
  · have hj : strings.Join [D, render false init.reverse, l]
        = D ++ '/' :: (render false init.reverse ++ '/' :: l) := rfl
    simp only [Join, hD, if_false, hj]
    rw [Clean_eq, isRooted_append _ _ hD, cleanStack_append_sep, strings.Split_append_sep,
      List.foldl_append, foldl_Split_render _ init hi, strings.Split_noSep l hl4]
    simp [cleanStep_proper _ _ l hl]

end destination

/-- Claim C1, as amended: for a source path `P = Join(Source, r)` with `r` a clean
relative path that does not start with `..` and is not `.`, the destination file
path of `mover` is `Join(Destin, Dir(r), Base(P)) = Join(Destin, r)`; its path
relative to `Destin` is `r`, the path of `P` relative to `Source`; and its base
name is the base name of `P`. -/
theorem mover_destName_reparents (config : tomlConfig) (r : Str)
    (hr : filepath.cleanLocal r = true) (hdot : r ≠ ['.']) :
    destName (filepath.Join [config.Source, r]) config
        = filepath.Join [config.Destin, filepath.Dir r,
            filepath.Base (filepath.Join [config.Source, r])] ∧
      destName (filepath.Join [config.Source, r]) config = filepath.Join [config.Destin, r] ∧
      filepath.Rel config.Destin (destName (filepath.Join [config.Source, r]) config) = some r ∧
      filepath.Rel config.Source (filepath.Join [config.Source, r]) = some r ∧
      filepath.Base (destName (filepath.Join [config.Source, r]) config)
        = filepath.Base (filepath.Join [config.Source, r]) := by
  obtain ⟨cs, hne, hcs, rfl⟩ := filepath.cleanLocal_elems r hr hdot
  obtain ⟨init, l, rfl⟩ : ∃ init l, cs = init ++ [l] :=
    ⟨cs.dropLast, cs.getLast hne, (List.dropLast_append_getLast hne).symm⟩
  have hi : ∀ c ∈ init, filepath.properName c = true := fun c hc => hcs c (by simp [hc])
  have hl : filepath.properName l = true := hcs l (by simp)
  have hname := destName_under config init l hi hl
  have hjoin := Join_under config.Destin (init ++ [l]) hne hcs
  simp only [List.reverse_append, List.reverse_cons, List.reverse_nil, List.nil_append,
    List.singleton_append, List.cons_append] at hjoin
  have hD : destName (filepath.Join [config.Source, strings.Join (init ++ [l])]) config
      = filepath.Join [config.Destin, strings.Join (init ++ [l])] := by
    rw [hname, hjoin]
  refine ⟨?_, hD, ?_, Rel_under config.Source _ hne hcs, ?_⟩
  · rw [hname, Base_under config.Source init l hi hl, filepath.Dir_Join init l hi hl,
      Join_three config.Destin init l hi hl]
  · rw [hD]
    exact Rel_under config.Destin _ hne hcs
  · rw [hname, Base_under config.Source init l hi hl]
    exact filepath.Base_render _ l _ hl

/-- Witness of `mover_destName_reparents`: source `/src`, destination `/dst`, file `a/b/data.csv`. -/
theorem mover_destName_reparents_witness :
    destName "/src/a/b/data.csv".toList Sample.rootConfig = "/dst/a/b/data.csv".toList ∧
      filepath.Rel "/dst".toList (destName "/src/a/b/data.csv".toList Sample.rootConfig)
        = some "a/b/data.csv".toList ∧
      filepath.Base (destName "/src/a/b/data.csv".toList Sample.rootConfig)
        = "data.csv".toList :=
  have h := mover_destName_reparents Sample.rootConfig "a/b/data.csv".toList
    (by decide) (by decide)
  ⟨h.2.1, h.2.2.1, h.2.2.2.2⟩

/-- Claim C1 fails for `r = .`, the source root itself: with source `/src` and
destination `/dst`, `.` is a clean relative path that does not start with `..`
and `P = Join(Source, .)` is `/src`; the destination file path of `mover` is
`/dst/src`, which is not `Join(Destin, r) = /dst`, and its path relative to `Destin`,
`src`, is not the path `.` of `P` relative to `Source`. -/
theorem mover_destName_root_counterexample :
    filepath.cleanLocal ".".toList = true ∧
      destName (filepath.Join [Sample.rootConfig.Source, ".".toList]) Sample.rootConfig
        = "/dst/src".toList ∧
      destName (filepath.Join [Sample.rootConfig.Source, ".".toList]) Sample.rootConfig
        ≠ filepath.Join [Sample.rootConfig.Destin, ".".toList] ∧
      filepath.Rel Sample.rootConfig.Destin
          (destName (filepath.Join [Sample.rootConfig.Source, ".".toList]) Sample.rootConfig)
        ≠ filepath.Rel Sample.rootConfig.Source
            (filepath.Join [Sample.rootConfig.Source, ".".toList]) := by
  decide
/-! ## Calls are recorded in order -/

theorem World.log_trace (w : World) (c : Call) : (w.log c).trace = w.trace ++ [c] := rfl

theorem World.log_fs (w : World) (c : Call) : (w.log c).fs = w.fs := rfl

theorem World.log_watched (w : World) (c : Call) : (w.log c).watched = w.watched := rfl

theorem Continues.refl (w : World) : Continues w w := ⟨[], by simp⟩

theorem Continues.trans {a b c : World} (h1 : Continues a b) (h2 : Continues b c) :
    Continues a c := by
  obtain ⟨t1, h1⟩ := h1
  obtain ⟨t2, h2⟩ := h2
  exact ⟨t1 ++ t2, by rw [h2, h1, List.append_assoc]⟩

theorem Continues.of_log (w : World) (c : Call) : Continues w (w.log c) := ⟨[c], rfl⟩

theorem Continues.of_trace {a b : World} (h : b.trace = a.trace) : Continues a b :=
  ⟨[], by simp [h]⟩

theorem os.Stat_snd (w : World) (p : Str) : (os.Stat w p).2 = w.log (Call.stat p) := rfl

theorem os.Stat_fst (w : World) (p : Str) : (os.Stat w p).1 = FS.stat w.fs p := rfl

theorem os.Chown_continues (w : World) (p : Str) (u g : Int) : Continues w (os.Chown w p u g).2 := by
  unfold os.Chown
  cases FS.chown w.fs p u g <;> exact ⟨[Call.chown p u g], rfl⟩

theorem os.MkdirAll_continues (w : World) (p : Str) : Continues w (os.MkdirAll w p).2 := by
  unfold os.MkdirAll
  cases FS.mkdirAll w.fs w.euid w.egid p <;> exact ⟨[Call.mkdirAll p], rfl⟩

theorem os.Rename_continues (w : World) (a b : Str) : Continues w (os.Rename w a b).2 := by
  unfold os.Rename
  cases FS.rename w.fs a b <;> exact ⟨[Call.rename a b], rfl⟩

theorem watcher.Add_continues (w : World) (p : Str) : Continues w (watcher.Add w p).2 := by
  unfold watcher.Add
  cases FS.stat w.fs p <;> exact ⟨[Call.watchAdd p], rfl⟩

theorem filepath.walkLoop_continues {σ : Type} (fsOf : σ → FS) (tr : σ → World)
    (fn : σ → Str → Except Errno Node → Except Panic (Option Errno × σ))
    (hfn : ∀ s name info r, fn s name info = .ok r → Continues (tr s) (tr r.2)) :
    ∀ (names : List Str) (s : σ) (r : Option Errno × σ),
      filepath.walkLoop fsOf fn names s = .ok r → Continues (tr s) (tr r.2) := by
  intro names
  induction names with
  | nil =>
    intro s r h
    simp only [filepath.walkLoop, Except.ok.injEq] at h
    subst h
    exact Continues.refl _
  | cons name rest ih =>
    intro s r h
    unfold filepath.walkLoop at h
    cases hf : fn s name (FS.lstat (fsOf s) name) with
    | error p => rw [hf] at h; cases h
    | ok r1 =>
      rw [hf] at h
      obtain ⟨e, s1⟩ := r1
      cases e with
      | some e =>
        simp only [Except.ok.injEq] at h
        subst h
        exact hfn _ _ _ _ hf
      | none =>
        simp only at h
        exact (hfn _ _ _ _ hf).trans (ih s1 r h)

theorem filepath.Walk_continues {σ : Type} (fsOf : σ → FS) (tr : σ → World) (root : Str)
    (fn : σ → Str → Except Errno Node → Except Panic (Option Errno × σ))
    (hfn : ∀ s name info r, fn s name info = .ok r → Continues (tr s) (tr r.2))
    (s : σ) (r : Option Errno × σ) (h : filepath.Walk fsOf root fn s = .ok r) :
    Continues (tr s) (tr r.2) := by
  unfold filepath.Walk at h
  cases hl : FS.lstat (fsOf s) root with
  | error e => rw [hl] at h; exact hfn _ _ _ _ h
  | ok n => rw [hl] at h; exact filepath.walkLoop_continues fsOf tr fn hfn _ _ _ h

theorem chownWalkFn_continues (config : tomlConfig) (w : World) (name : Str)
    (info : Except Errno Node) (r : Option Errno × World)
    (h : chownWalkFn config w name info = .ok r) : Continues w r.2 := by
  unfold chownWalkFn at h
  cases info with
  | error e =>
    simp only [Except.ok.injEq] at h
    subst h
    exact Continues.refl _
  | ok n =>
    simp only [Except.ok.injEq] at h
    subst h
    exact os.Chown_continues _ _ _ _

theorem createDirectory_continues (w : World) (path : Str) (config : tomlConfig)
    (r : Bool × World) (h : createDirectory w path config = .ok r) : Continues w r.2 := by
  unfold createDirectory at h
  simp only [os.Stat] at h
  have h0 : Continues w (w.log (Call.stat path)) := Continues.of_log _ _
  split at h
  · have hm := os.MkdirAll_continues (w.log (Call.stat path)) path
    split at h
    · rename_i e w2 heq
      simp only [Except.ok.injEq] at h
      subst h
      rw [heq] at hm
      exact h0.trans hm
    · rename_i w2 heq
      rw [heq] at hm
      split at h
      · split at h
        · cases h
        · rename_i e w3 hw
          simp only [Except.ok.injEq] at h
          subst h
          have := filepath.Walk_continues World.fs id _ _ (chownWalkFn_continues config) _ _ hw
          exact (h0.trans hm).trans ((Continues.of_log _ _).trans this)
        · rename_i w3 hw
          simp only [Except.ok.injEq] at h
          subst h
          have := filepath.Walk_continues World.fs id _ _ (chownWalkFn_continues config) _ _ hw
          exact (h0.trans hm).trans ((Continues.of_log _ _).trans this)
      · simp only [Except.ok.injEq] at h
        subst h
        exact h0.trans hm
  · split at h
    · cases h
    · split at h <;>
      · simp only [Except.ok.injEq] at h
        subst h
        exact h0

theorem mover_continues (w : World) (path : Str) (config : tomlConfig)
    (r : Exit × World) (h : mover w path config = .ok r) :
    ∃ t, r.2.trace = w.trace ++ Call.mover path :: t := by
  have key : Continues (w.log (Call.mover path)) r.2 := by
    unfold mover at h
    simp only [os.Stat] at h
    split at h
    · cases h
    · rename_i w1 hc
      simp only [Except.ok.injEq] at h
      subst h
      exact createDirectory_continues _ _ _ _ hc
    · rename_i w1 hc
      have h1 := createDirectory_continues _ _ _ _ hc
      simp only at h1
      have h2 : Continues w1 (w1.log (Call.stat (destName path config))) := Continues.of_log _ _
      split at h
      · simp only [Except.ok.injEq] at h
        subst h
        exact h1.trans h2
      · have h3 := os.Rename_continues (w1.log (Call.stat (destName path config))) path
          (destName path config)
        split at h
        · rename_i e w3 hr
          simp only [Except.ok.injEq] at h
          subst h
          rw [hr] at h3
          exact (h1.trans h2).trans h3
        · rename_i w3 hr
          rw [hr] at h3
          split at h
          · have h4 := os.Chown_continues w3 (destName path config) config.Uid config.Gid
            split at h
            · rename_i e w4 hch
              simp only [Except.ok.injEq] at h
              subst h
              rw [hch] at h4
              exact ((h1.trans h2).trans h3).trans h4
            · rename_i w4 hch
              simp only [Except.ok.injEq] at h
              subst h
              rw [hch] at h4
              exact ((h1.trans h2).trans h3).trans h4
          · simp only [Except.ok.injEq] at h
            subst h
            exact (h1.trans h2).trans h3
  obtain ⟨t, ht⟩ := key
  exact ⟨t, by rw [ht, World.log_trace]; simp⟩
/-! ## Structural conflict, the operation filter and symbolic links -/

/-- Claim C4: when the target directory path exists and is a regular file,
`createDirectory` returns false having made the `stat` call only (nothing is
created, no owner changes, the filesystem is as before), and `mover` with that
destination directory returns right after it, with no rename: the filesystem is
unchanged, so the source file stays at its path. -/
theorem createDirectory_file_conflict (w : World) (config : tomlConfig) (path : Str) (info : Node)
    (hstat : FS.stat w.fs path = .ok info) (hreg : info.kind = Kind.regular) :
    createDirectory w path config = .ok (false, w.log (Call.stat path)) ∧
      (w.log (Call.stat path)).fs = w.fs ∧
      ∀ src, destPath src config = path →
        mover w src config
            = .ok (Exit.noDirectory, (w.log (Call.mover src)).log (Call.stat path)) ∧
          ((w.log (Call.mover src)).log (Call.stat path)).fs = w.fs := by
  have hcd : ∀ v : World, v.fs = w.fs →
      createDirectory v path config = .ok (false, v.log (Call.stat path)) := by
    intro v hv
    unfold createDirectory
    simp [os.Stat, hv, hstat, errOf, os.IsNotExist, hreg]
  refine ⟨hcd w rfl, rfl, ?_⟩
  intro src hsrc
  refine ⟨?_, rfl⟩
  unfold mover
  simp only [hsrc]
  rw [hcd (w.log (Call.mover src)) rfl]

/-- Witness of `createDirectory_file_conflict`: `/d/a` is a regular file and `/s/a/f` is to be moved. -/
theorem createDirectory_file_conflict_witness :
    createDirectory (Sample.world Sample.conflictFS) "/d/a".toList Sample.config
        = .ok (false, (Sample.world Sample.conflictFS).log (Call.stat "/d/a".toList)) ∧
      mover (Sample.world Sample.conflictFS) "/s/a/f".toList Sample.config
        = .ok (Exit.noDirectory, ((Sample.world Sample.conflictFS).log
            (Call.mover "/s/a/f".toList)).log (Call.stat "/d/a".toList)) :=
  have h := createDirectory_file_conflict (Sample.world Sample.conflictFS) Sample.config
    "/d/a".toList (Sample.fileNode 0 0 [2]) (by decide) (by decide)
  ⟨h.1, (h.2.2 "/s/a/f".toList (by decide)).1⟩

/-- Claim C9: when `lstat` classifies the path of an event as a symbolic link, the
task of the event returns having made the `stat` call, or the `stat` and
`lstat` calls, and nothing else, whatever the pattern, the operation and the
recursive flag: `mover` is not called, nothing is added to the watch registry
and the filesystem is unchanged. -/
theorem eventTask_symlink_dropped (MatchString : Str → Str → Bool) (w : World)
    (config : tomlConfig) (event : fsnotify.Event) (info : Node)
    (hl : FS.lstat w.fs event.Name = .ok info) (hk : info.kind = Kind.symlink) :
    ∃ w1, eventTask MatchString w config event = .ok w1 ∧ w1.fs = w.fs ∧
      w1.watched = w.watched ∧
      (w1.trace = w.trace ++ [Call.task event.Name, Call.stat event.Name] ∨
        w1.trace = w.trace ++ [Call.task event.Name, Call.stat event.Name,
          Call.lstat event.Name]) := by
  unfold eventTask
  simp only [os.Stat, os.Lstat, World.log_fs, hl]
  split
  · exact ⟨_, rfl, rfl, rfl, Or.inl (by simp [World.log_trace])⟩
  · exact ⟨_, rfl, rfl, rfl, Or.inr (by simp [World.log_trace])⟩

/-- Witness of `eventTask_symlink_dropped`: the link `/s/l` to the regular file `/t`. -/
theorem eventTask_symlink_dropped_witness :
    ∃ w1, eventTask Sample.anyPath (Sample.world Sample.linkFS) Sample.config
        { Name := "/s/l".toList, Op := fsnotify.Create } = .ok w1 ∧
      w1.fs = Sample.linkFS ∧ w1.watched = [] ∧
      (w1.trace = [] ++ [Call.task "/s/l".toList, Call.stat "/s/l".toList] ∨
        w1.trace = [] ++ [Call.task "/s/l".toList, Call.stat "/s/l".toList,
          Call.lstat "/s/l".toList]) :=
  eventTask_symlink_dropped Sample.anyPath (Sample.world Sample.linkFS) Sample.config
    { Name := "/s/l".toList, Op := fsnotify.Create } (Sample.linkNode 0 0 "/t".toList)
    (by decide) (by decide)
theorem eventTask_continues (MatchString : Str → Str → Bool) (w : World) (config : tomlConfig)
    (event : fsnotify.Event) (w1 : World) (h : eventTask MatchString w config event = .ok w1) :
    ∃ t, w1.trace = w.trace ++ Call.task event.Name :: t := by
  have key : Continues (w.log (Call.task event.Name)) w1 := by
    unfold eventTask at h
    simp only [os.Stat, os.Lstat] at h
    have h1 : Continues (w.log (Call.task event.Name))
        ((w.log (Call.task event.Name)).log (Call.stat event.Name)) := Continues.of_log _ _
    have h2 := h1.trans (Continues.of_log _ (Call.lstat event.Name))
    split at h
    · simp only [Except.ok.injEq] at h
      subst h
      exact h1
    · split at h
      · cases h
      · split at h
        · simp only [Except.ok.injEq] at h
          subst h
          exact h2
        · split at h
          · split at h
            · simp only [Except.ok.injEq] at h
              subst h
              exact h2.trans (watcher.Add_continues _ _)
            · simp only [Except.ok.injEq] at h
              subst h
              exact h2
          · split at h
            · split at h
              · simp only [Except.ok.injEq] at h
                subst h
                exact h2
              · have h3 := (h2.trans (Continues.of_log _ (Call.sleep config.Delay))).trans
                  (Continues.of_log _ (Call.stat event.Name))
                split at h
                · simp only [Except.ok.injEq] at h
                  subst h
                  exact h3
                · split at h
                  · cases h
                  · rename_i e w5 hm
                    simp only [Except.ok.injEq] at h
                    subst h
                    obtain ⟨t, ht⟩ := mover_continues _ _ _ _ hm
                    exact h3.trans ⟨_, ht⟩
            · simp only [Except.ok.injEq] at h
              subst h
              exact h2
  obtain ⟨t, ht⟩ := key
  exact ⟨t, by rw [ht, World.log_trace]; simp⟩

theorem fsop_cases (config : tomlConfig) :
    (config.Fileop = "CREATE".toList ∧ fsop config = fsnotify.Create) ∨
      (config.Fileop = "WRITE".toList ∧ fsop config = fsnotify.Write) ∨
      (config.Fileop = "REMOVE".toList ∧ fsop config = fsnotify.Remove) ∨
      (config.Fileop = "RENAME".toList ∧ fsop config = fsnotify.Rename) ∨
      (config.Fileop = "CHMOD".toList ∧ fsop config = fsnotify.Chmod) ∨
      (config.Fileop ∉ ["CREATE".toList, "WRITE".toList, "REMOVE".toList, "RENAME".toList,
          "CHMOD".toList] ∧ fsop config = 0) := by
  unfold fsop
  by_cases h1 : config.Fileop = "CREATE".toList
  · left; exact ⟨h1, by simp [h1]⟩
  by_cases h2 : config.Fileop = "WRITE".toList
  · right; left; exact ⟨h2, by rw [if_neg h1, if_pos h2]⟩
  by_cases h3 : config.Fileop = "REMOVE".toList
  · right; right; left; exact ⟨h3, by rw [if_neg h1, if_neg h2, if_pos h3]⟩
  by_cases h4 : config.Fileop = "RENAME".toList
  · right; right; right; left; exact ⟨h4, by rw [if_neg h1, if_neg h2, if_neg h3, if_pos h4]⟩
  by_cases h5 : config.Fileop = "CHMOD".toList
  · right; right; right; right; left
    exact ⟨h5, by rw [if_neg h1, if_neg h2, if_neg h3, if_neg h4, if_pos h5]⟩
  · right; right; right; right; right
    refine ⟨?_, by rw [if_neg h1, if_neg h2, if_neg h3, if_neg h4, if_neg h5]⟩
    simp only [List.mem_cons, List.mem_singleton, List.not_mem_nil, or_false, not_or]
    exact ⟨h1, h2, h3, h4, h5⟩

/-- Claim C8: `fsop` is the one operation bit `Fileop` names (`CREATE` 1, `WRITE` 2,
`REMOVE` 4, `RENAME` 8, `CHMOD` 16) and zero for any other name.  On an event
whose operations do not intersect it, the round of the loop starts no task: it
returns the world as it was, or only with the path released from the watch
registry when the event is a removal, so there is no `stat` call, no watch
subscription and no relocation.  On an event whose operations intersect it the
task runs: a round that returns has recorded the start of the task, and a
panic comes from a started task only.  With a name that is none of the five no
event starts a task. -/
theorem handleEvent_operation_filter (MatchString : Str → Str → Bool) (w : World)
    (config : tomlConfig) (event : fsnotify.Event) :
    (fsop config = (if config.Fileop = "CREATE".toList then 1
        else if config.Fileop = "WRITE".toList then 2
        else if config.Fileop = "REMOVE".toList then 4
        else if config.Fileop = "RENAME".toList then 8
        else if config.Fileop = "CHMOD".toList then 16 else 0)) ∧
      (event.Op &&& fsop config = 0 →
        handleEvent MatchString w config event
          = .ok (if event.Op &&& fsnotify.Remove ≠ 0 then watcher.Remove w event.Name else w) ∧
        Call.task event.Name ∉
          (if event.Op &&& fsnotify.Remove ≠ 0 then [Call.watchRemove event.Name] else [])) ∧
      (event.Op &&& fsop config ≠ 0 →
        handleEvent MatchString w config event
          = (match eventTask MatchString w config event with
            | .error p => .error p
            | .ok w1 =>
              .ok (if event.Op &&& fsnotify.Remove ≠ 0 then watcher.Remove w1 event.Name else w1)) ∧
        ∀ w2, handleEvent MatchString w config event = .ok w2 →
          ∃ t, w2.trace = w.trace ++ Call.task event.Name :: t) ∧
      (∀ p, handleEvent MatchString w config event = .error p → event.Op &&& fsop config ≠ 0) ∧
      (config.Fileop ∉ ["CREATE".toList, "WRITE".toList, "REMOVE".toList, "RENAME".toList,
          "CHMOD".toList] → event.Op &&& fsop config = 0) := by
  have hno : event.Op &&& fsop config = 0 →
      handleEvent MatchString w config event
        = .ok (if event.Op &&& fsnotify.Remove ≠ 0 then watcher.Remove w event.Name else w) := by
    intro h
    unfold handleEvent
    simp only [h, ne_eq, not_true_eq_false, if_false]
    split <;> rfl
  have hyes : event.Op &&& fsop config ≠ 0 →
      handleEvent MatchString w config event
        = (match eventTask MatchString w config event with
          | .error p => .error p
          | .ok w1 =>
            .ok (if event.Op &&& fsnotify.Remove ≠ 0 then watcher.Remove w1 event.Name else w1)) := by
    intro h
    unfold handleEvent
    simp only [h, ne_eq, not_false_eq_true, if_true]
    cases eventTask MatchString w config event with
    | error p => rfl
    | ok w1 => simp only; split <;> rfl
  refine ⟨rfl, fun h => ⟨hno h, ?_⟩, fun h => ⟨hyes h, ?_⟩, ?_, ?_⟩
  · split <;> simp
  · intro w2 h2
    rw [hyes h] at h2
    cases ht : eventTask MatchString w config event with
    | error p => rw [ht] at h2; cases h2
    | ok w1 =>
      rw [ht] at h2
      simp only [Except.ok.injEq] at h2
      obtain ⟨t, ht1⟩ := eventTask_continues _ _ _ _ _ ht
      subst h2
      split
      · exact ⟨t ++ [Call.watchRemove event.Name], by
          simp [watcher.Remove, World.log_trace, ht1]⟩
      · exact ⟨t, ht1⟩
  · intro p hp h0
    rw [hno h0] at hp
    cases hp
  · intro hn
    rcases fsop_cases config with h | h | h | h | h | h
    · exact absurd (by simp [h.1]) hn
    · exact absurd (by simp [h.1]) hn
    · exact absurd (by simp [h.1]) hn
    · exact absurd (by simp [h.1]) hn
    · exact absurd (by simp [h.1]) hn
    · rw [h.2]; simp

/-- Witness of `handleEvent_operation_filter`: a `WRITE` event under a
configuration that reacts to `CREATE` starts no task and changes nothing. -/
theorem handleEvent_operation_filter_witness :
    handleEvent Sample.anyPath (Sample.world Sample.linkFS) Sample.config
        { Name := "/s/l".toList, Op := fsnotify.Write }
      = .ok (Sample.world Sample.linkFS) :=
  ((handleEvent_operation_filter Sample.anyPath (Sample.world Sample.linkFS) Sample.config
    { Name := "/s/l".toList, Op := fsnotify.Write }).2.1 (by decide)).1
/-! ## Filesystem lemmas -/

namespace FS

theorem find_cons (k' : Key) (n : Node) (rest : FS) (k : Key) :
    find ((k', n) :: rest) k = if k' = k then some n else find rest k := rfl

theorem find_erase (fs : FS) (k k' : Key) :
    find (erase fs k) k' = if k' = k then none else find fs k' := by
  induction fs with
  | nil => simp [erase, find]
  | cons e rest ih =>
    obtain ⟨ke, ne⟩ := e
    unfold erase at ih ⊢
    by_cases h : ke = k
    · subst h
      simp only [List.filter_cons, ne_eq, not_true_eq_false, decide_False, Bool.false_eq_true,
        if_false, ih, find_cons]
      by_cases h2 : k' = ke
      · simp [h2]
      · have : ¬ ke = k' := fun e => h2 e.symm
        simp [h2, this]
    · simp only [List.filter_cons, ne_eq, h, not_false_eq_true, decide_True, if_true, find_cons, ih]
      by_cases h2 : ke = k'
      · subst h2; simp [h]
      · simp [h2]

theorem find_insert (fs : FS) (k : Key) (n : Node) (k' : Key) :
    find (insert fs k n) k' = if k' = k then some n else find fs k' := by
  unfold insert
  rw [find_cons, find_erase]
  by_cases h : k = k'
  · subst h; simp
  · have : ¬ k' = k := fun e => h e.symm
    simp [h, this]

theorem find_modify (fs : FS) (k : Key) (f : Node → Node) (k' : Key) :
    find (modify fs k f) k' = if k' = k then (find fs k').map f else find fs k' := by
  induction fs with
  | nil => simp [modify, find]
  | cons e rest ih =>
    obtain ⟨ke, ne⟩ := e
    unfold modify at ih ⊢
    simp only [List.map_cons]
    by_cases h : ke = k
    · subst h
      simp only [if_true, find_cons, ih]
      by_cases h2 : ke = k'
      · subst h2; simp
      · have : ¬ k' = ke := fun e => h2 e.symm
        simp [h2, this]
    · simp only [h, if_false, find_cons, ih]
      by_cases h2 : ke = k'
      · subst h2; simp [h]
      · simp [h2]

theorem mem_of_find {fs : FS} {k : Key} {n : Node} (h : find fs k = some n) : (k, n) ∈ fs := by
  induction fs with
  | nil => simp [find] at h
  | cons e rest ih =>
    obtain ⟨ke, ne⟩ := e
    rw [find_cons] at h
    by_cases h2 : ke = k
    · subst h2
      simp only [if_true, Option.some.injEq] at h
      subst h
      simp
    · simp only [h2, if_false] at h
      exact List.mem_cons_of_mem _ (ih h)

theorem wf_names {fs : FS} (hwf : wf fs = true) {k : Key} {n : Node} (h : find fs k = some n) :
    ∀ c ∈ k, filepath.properName c = true := by
  unfold wf at hwf
  rw [List.all_eq_true] at hwf
  have := hwf _ (mem_of_find h)
  simp only [Bool.and_eq_true, List.all_eq_true] at this
  exact this.1

theorem wf_parent {fs : FS} (hwf : wf fs = true) {k : Key} {n : Node} (h : find fs k = some n)
    (hk : k ≠ []) : ∃ p, find fs k.dropLast = some p ∧ p.kind = Kind.dir := by
  unfold wf at hwf
  rw [List.all_eq_true] at hwf
  have := hwf _ (mem_of_find h)
  simp only [Bool.and_eq_true, Bool.or_eq_true, decide_eq_true_eq, hk, false_or] at this
  cases hp : find fs k.dropLast with
  | none => rw [hp] at this; simp at this
  | some p =>
    rw [hp] at this
    exact ⟨p, rfl, by simpa using this.2⟩

/-- In a well-formed filesystem every proper ancestor of a stored key is a directory. -/
theorem wf_ancestor {fs : FS} (hwf : wf fs = true) (pre : Key) :
    ∀ (s : List Str) (n : Node), s ≠ [] → find fs (pre ++ s) = some n →
      ∃ p, find fs pre = some p ∧ p.kind = Kind.dir := by
  intro s
  induction s using List.reverseRecOn with
  | nil => intro n h; exact absurd rfl h
  | append_singleton s x ih =>
    intro n _ h
    have hne : pre ++ (s ++ [x]) ≠ [] := by simp
    obtain ⟨p, hp, hd⟩ := wf_parent hwf h hne
    have hdl : (pre ++ (s ++ [x])).dropLast = pre ++ s := by
      rw [← List.append_assoc, List.dropLast_concat]
    rw [hdl] at hp
    by_cases hs : s = []
    · subst hs
      exact ⟨p, by simpa using hp, hd⟩
    · exact ih p hs hp

theorem find_of_lookupFrom (fs : FS) :
    ∀ (cs : List Str) (pre : Key) (n : Node),
      lookupFrom fs pre cs = .ok n → find fs (pre ++ cs) = some n := by
  intro cs
  induction cs with
  | nil =>
    intro pre n h
    unfold lookupFrom at h
    cases hf : find fs pre with
    | none => rw [hf] at h; cases h
    | some m =>
      rw [hf] at h
      simp only [Except.ok.injEq] at h
      simpa [h] using hf
  | cons c cs ih =>
    intro pre n h
    unfold lookupFrom at h
    cases hf : find fs pre with
    | none => rw [hf] at h; cases h
    | some m =>
      rw [hf] at h
      by_cases hd : m.kind = Kind.dir
      · simp only [hd, if_true] at h
        have := ih (pre ++ [c]) n h
        simpa using this
      · simp only [hd, if_false] at h
        cases h

theorem find_of_lookupKey {fs : FS} {k : Key} {n : Node} (h : lookupKey fs k = .ok n) :
    find fs k = some n := by
  simpa using find_of_lookupFrom fs k [] n h

theorem lookupFrom_of_find {fs : FS} (hwf : wf fs = true) :
    ∀ (cs : List Str) (pre : Key) (n : Node),
      find fs (pre ++ cs) = some n → lookupFrom fs pre cs = .ok n := by
  intro cs
  induction cs with
  | nil =>
    intro pre n h
    unfold lookupFrom
    simp only [List.append_nil] at h
    rw [h]
  | cons c cs ih =>
    intro pre n h
    obtain ⟨p, hp, hd⟩ := wf_ancestor hwf pre (c :: cs) n (by simp) h
    unfold lookupFrom
    rw [hp]
    simp only [hd, if_true]
    exact ih (pre ++ [c]) n (by simpa using h)

theorem lookupKey_of_find {fs : FS} (hwf : wf fs = true) {k : Key} {n : Node}
    (h : find fs k = some n) : lookupKey fs k = .ok n :=
  lookupFrom_of_find hwf k [] n (by simpa using h)

theorem lookupKey_of_followKey {fs : FS} {fuel : Nat} {k : Key} {r : Key × Node}
    (h : followKey fs fuel k = .ok r) : ∃ n, lookupKey fs k = .ok n := by
  cases fuel with
  | zero =>
    unfold followKey at h
    cases hl : lookupKey fs k with
    | error e => rw [hl] at h; cases h
    | ok n => exact ⟨n, rfl⟩
  | succ f =>
    unfold followKey at h
    cases hl : lookupKey fs k with
    | error e => rw [hl] at h; cases h
    | ok n => exact ⟨n, rfl⟩

theorem followKey_of_lookupKey {fs : FS} (fuel : Nat) {k : Key} {n : Node}
    (h : lookupKey fs k = .ok n) (hk : n.kind ≠ Kind.symlink) :
    followKey fs fuel k = .ok (k, n) := by
  cases fuel <;> simp [followKey, h, hk]

theorem stat_of_find {fs : FS} (hwf : wf fs = true) {p : Str} {n : Node}
    (h : find fs (resolve p) = some n) (hk : n.kind ≠ Kind.symlink) : stat fs p = .ok n := by
  unfold stat
  rw [followKey_of_lookupKey 40 (lookupKey_of_find hwf h) hk]

theorem find_of_stat {fs : FS} {p : Str} {n : Node} (h : stat fs p = .ok n) :
    ∃ m, find fs (resolve p) = some m := by
  unfold stat at h
  cases hf : followKey fs 40 (resolve p) with
  | error e => rw [hf] at h; cases h
  | ok r =>
    obtain ⟨m, hm⟩ := lookupKey_of_followKey hf
    exact ⟨m, find_of_lookupKey hm⟩

end FS
namespace filepath

theorem cleanStep_rooted_strip {stk : List Str} (h : ValidStack false stk) (c : Str)
    (hc : '/' ∉ c) :
    cleanStep true (stk.filter (fun x => decide (x ≠ ['.', '.']))) c
      = (cleanStep false stk c).filter (fun x => decide (x ≠ ['.', '.'])) := by
  by_cases h1 : c = [] ∨ c = ['.']
  · simp [cleanStep, h1]
  by_cases h2 : c = ['.', '.']
  · subst h2
    obtain ⟨ns, n, rfl, hns, _⟩ := h
    cases ns with
    | nil =>
      cases n with
      | zero => simp [cleanStep]
      | succ m => simp [cleanStep, List.replicate_succ, List.filter_cons]
    | cons t ns =>
      have ht3 : t ≠ ['.', '.'] := ((properName_iff t).1 (hns t (by simp))).2.2.1
      simp [cleanStep, ht3, List.filter_cons]
  · have hp : properName c = true := by
      rw [properName_iff]
      push_neg at h1
      exact ⟨h1.1, h1.2, h2, hc⟩
    rw [cleanStep_proper _ _ c hp, cleanStep_proper _ _ c hp]
    simp [List.filter_cons, h2]

theorem foldl_rooted_strip (cs : List Str) (hcs : ∀ c ∈ cs, '/' ∉ c) :
    ∀ stk, ValidStack false stk →
      cs.foldl (cleanStep true) (stk.filter (fun x => decide (x ≠ ['.', '.'])))
        = (cs.foldl (cleanStep false) stk).filter (fun x => decide (x ≠ ['.', '.'])) := by
  induction cs with
  | nil => intro stk _; rfl
  | cons c cs ih =>
    intro stk h
    have hc := hcs c (by simp)
    rw [List.foldl_cons, List.foldl_cons, cleanStep_rooted_strip h c hc]
    exact ih (fun x hx => hcs x (by simp [hx])) _ (h.step c hc)

theorem cleanStack_rooted (p : Str) :
    cleanStack true p = (cleanStack false p).filter (fun x => decide (x ≠ ['.', '.'])) := by
  have := foldl_rooted_strip (strings.Split p) (strings.mem_Split_noSep p) [] (ValidStack.nil false)
  simpa [cleanStack] using this

theorem cleanStack_true_Clean (p : Str) : cleanStack true (Clean p) = cleanStack true p := by
  rw [Clean_eq]
  cases hr : isRooted p with
  | true => exact cleanStack_render (cleanStack_valid true p)
  | false =>
    rw [cleanStack_rooted (render false _), cleanStack_render (cleanStack_valid false p),
      ← cleanStack_rooted]

theorem Clean_ne_nil (p : Str) : Clean p ≠ [] :=
  render_ne_nil _ _ (cleanStack_valid _ p)

theorem Join_pair_eq (a b : Str) (ha : a ≠ []) : Join [a, b] = Clean (a ++ '/' :: b) := by
  simp [Join, ha, strings.Join]

end filepath

namespace FS

theorem resolve_Clean (p : Str) : resolve (filepath.Clean p) = resolve p := by
  unfold resolve
  rw [filepath.cleanStack_true_Clean]

theorem resolve_append_proper (a c : Str) (hc : filepath.properName c = true) :
    resolve (a ++ '/' :: c) = resolve a ++ [c] := by
  unfold resolve
  rw [filepath.cleanStack_append_sep,
    strings.Split_noSep c ((filepath.properName_iff c).1 hc).2.2.2]
  simp [filepath.cleanStep_proper _ _ c hc]

theorem resolve_Join_proper (a c : Str) (ha : a ≠ []) (hc : filepath.properName c = true) :
    resolve (filepath.Join [a, c]) = resolve a ++ [c] := by
  rw [filepath.Join_pair_eq a c ha, resolve_Clean, resolve_append_proper a c hc]

end FS

theorem Dir_ne_nil (p : Str) : filepath.Dir p ≠ [] := filepath.Clean_ne_nil _

theorem destPath_ne_nil (path : Str) (config : tomlConfig) : destPath path config ≠ [] := by
  unfold destPath
  simp only
  by_cases h : config.Destin = []
  · simp only [filepath.Join, h, if_true, Dir_ne_nil, if_false]
    exact filepath.Clean_ne_nil _
  · simp only [filepath.Join, h, if_false]
    exact filepath.Clean_ne_nil _

theorem resolve_destName (path : Str) (config : tomlConfig)
    (hb : filepath.properName (filepath.Base path) = true) :
    FS.resolve (destName path config) = FS.resolve (destPath path config) ++ [filepath.Base path] := by
  unfold destName
  exact FS.resolve_Join_proper _ _ (destPath_ne_nil path config) hb

/-! ## Overwrite policy -/

theorem createDirectory_existing_dir (w : World) (config : tomlConfig) (path : Str) (info : Node)
    (hstat : FS.stat w.fs path = .ok info) (hdir : info.kind = Kind.dir) :
    createDirectory w path config = .ok (true, w.log (Call.stat path)) := by
  unfold createDirectory
  simp [os.Stat, hstat, errOf, os.IsNotExist, hdir]

/-- Claim C2: when the destination file `destName` exists (`stat` succeeds) and
`Owrite` is false, `mover` returns at the overwrite gate having made two `stat`
calls and nothing else: no directory is created, there is no rename and no
chown, and the filesystem is as before, so the source file is still at its path
and the destination file is untouched.  The filesystem is well formed and the
source path ends in a proper file name. -/
theorem mover_keeps_existing_destination (w : World) (config : tomlConfig) (path : Str)
    (info : Node) (hwf : FS.wf w.fs = true)
    (hbase : filepath.properName (filepath.Base path) = true)
    (hstat : FS.stat w.fs (destName path config) = .ok info)
    (how : config.Owrite = false) :
    ∃ w1, mover w path config = .ok (Exit.alreadyExists, w1) ∧ w1.fs = w.fs ∧
      w1.watched = w.watched ∧
      w1.trace = w.trace ++ [Call.mover path, Call.stat (destPath path config),
        Call.stat (destName path config)] := by
  obtain ⟨m, hm⟩ := FS.find_of_stat hstat
  rw [resolve_destName path config hbase] at hm
  obtain ⟨p, hp, hd⟩ := FS.wf_parent hwf hm (by simp)
  rw [List.dropLast_concat] at hp
  have hsp : FS.stat w.fs (destPath path config) = .ok p :=
    FS.stat_of_find hwf hp (by rw [hd]; decide)
  have hcd := createDirectory_existing_dir (w.log (Call.mover path)) config
    (destPath path config) p hsp hd
  refine ⟨((w.log (Call.mover path)).log (Call.stat (destPath path config))).log
    (Call.stat (destName path config)), ?_, rfl, rfl, by simp [World.log_trace]⟩
  unfold mover
  simp only [hcd, os.Stat, World.log_fs, hstat, errOf, chkFileExist, os.IsNotExist, how]
  simp

/-- Witness of `mover_keeps_existing_destination`: `/d/f` exists and `/s/f` is to be moved. -/
theorem mover_keeps_existing_destination_witness :
    ∃ w1, mover (Sample.world Sample.overwriteFS) "/s/f".toList Sample.config
        = .ok (Exit.alreadyExists, w1) ∧
      w1.fs = Sample.overwriteFS ∧ w1.watched = [] ∧
      w1.trace = [] ++ [Call.mover "/s/f".toList,
        Call.stat (destPath "/s/f".toList Sample.config),
        Call.stat (destName "/s/f".toList Sample.config)] :=
  mover_keeps_existing_destination (Sample.world Sample.overwriteFS) Sample.config
    "/s/f".toList (Sample.fileNode 5 5 [2]) (by decide) (by decide) (by decide) (by decide)
namespace FS

theorem find_of_mem {fs : FS} {k : Key} {n : Node} (h : (k, n) ∈ fs) : ∃ m, find fs k = some m := by
  induction fs with
  | nil => simp at h
  | cons e rest ih =>
    obtain ⟨ke, ne⟩ := e
    rw [find_cons]
    by_cases h2 : ke = k
    · exact ⟨ne, by simp [h2]⟩
    · simp only [h2, if_false]
      rcases List.mem_cons.1 h with h3 | h3
      · exact absurd (Prod.mk.inj h3).1.symm h2
      · exact ih h3

/-- What `wf` checks, as a statement about the stored keys. -/
theorem wf_iff (fs : FS) :
    wf fs = true ↔ ∀ k n, find fs k = some n →
      (∀ c ∈ k, filepath.properName c = true) ∧
        (k = [] ∨ ∃ p, find fs k.dropLast = some p ∧ p.kind = Kind.dir) := by
  constructor
  · intro h k n hf
    refine ⟨wf_names h hf, ?_⟩
    by_cases hk : k = []
    · exact Or.inl hk
    · exact Or.inr (wf_parent h hf hk)
  · intro h
    unfold wf
    rw [List.all_eq_true]
    intro e he
    obtain ⟨k, n⟩ := e
    obtain ⟨m, hm⟩ := find_of_mem he
    obtain ⟨h1, h2⟩ := h k m hm
    simp only [Bool.and_eq_true, List.all_eq_true, Bool.or_eq_true, decide_eq_true_eq]
    refine ⟨h1, ?_⟩
    rcases h2 with h2 | ⟨p, hp, hd⟩
    · exact Or.inl h2
    · right
      rw [hp]
      simpa using hd

theorem dropLast_ne_self {k : Key} (hk : k ≠ []) : k.dropLast ≠ k := by
  intro e
  have := congrArg List.length e
  rw [List.length_dropLast] at this
  have : 0 < k.length := List.length_pos.2 hk
  omega

/-- Storing a node whose parent is a directory keeps the filesystem well formed,
when the node is a directory or nothing is stored right below its key. -/
theorem wf_insert {fs : FS} (hwf : wf fs = true) (k : Key) (n : Node)
    (hnames : ∀ c ∈ k, filepath.properName c = true)
    (hparent : k = [] ∨ ∃ p, find fs k.dropLast = some p ∧ p.kind = Kind.dir)
    (hchildren : n.kind = Kind.dir ∨ ∀ q m, find fs q = some m → q ≠ [] → q.dropLast ≠ k) :
    wf (insert fs k n) = true := by
  rw [wf_iff] at hwf ⊢
  intro q m hq
  rw [find_insert] at hq
  by_cases hqk : q = k
  · subst hqk
    refine ⟨hnames, ?_⟩
    rcases hparent with h | ⟨p, hp, hd⟩
    · exact Or.inl h
    · by_cases hq0 : q = []
      · exact Or.inl hq0
      · right
        refine ⟨p, ?_, hd⟩
        rw [find_insert, if_neg (dropLast_ne_self hq0)]
        exact hp
  · simp only [hqk, if_false] at hq
    obtain ⟨h1, h2⟩ := hwf q m hq
    refine ⟨h1, ?_⟩
    rcases h2 with h2 | ⟨p, hp, hd⟩
    · exact Or.inl h2
    · by_cases hq0 : q = []
      · exact Or.inl hq0
      · right
        rw [find_insert]
        by_cases hpk : q.dropLast = k
        · rcases hchildren with hc | hc
          · exact ⟨n, by simp [hpk], hc⟩
          · exact absurd hpk (hc q m hq hq0)
        · exact ⟨p, by simp [hpk, hp], hd⟩

/-- Removing a key below which nothing is stored keeps the filesystem well formed. -/
theorem wf_erase {fs : FS} (hwf : wf fs = true) (k : Key)
    (hchildren : ∀ q m, find fs q = some m → q ≠ [] → q.dropLast ≠ k) :
    wf (erase fs k) = true := by
  rw [wf_iff] at hwf ⊢
  intro q m hq
  rw [find_erase] at hq
  by_cases hqk : q = k
  · simp [hqk] at hq
  · simp only [hqk, if_false] at hq
    obtain ⟨h1, h2⟩ := hwf q m hq
    refine ⟨h1, ?_⟩
    rcases h2 with h2 | ⟨p, hp, hd⟩
    · exact Or.inl h2
    · by_cases hq0 : q = []
      · exact Or.inl hq0
      · right
        refine ⟨p, ?_, hd⟩
        rw [find_erase, if_neg (hchildren q m hq hq0)]
        exact hp

/-- A change of nodes that keeps their kind keeps the filesystem well formed. -/
theorem wf_modify {fs : FS} (hwf : wf fs = true) (k : Key) (f : Node → Node)
    (hf : ∀ n, (f n).kind = n.kind) : wf (modify fs k f) = true := by
  rw [wf_iff] at hwf ⊢
  intro q m hq
  have hq0 : ∃ m0, find fs q = some m0 := by
    rw [find_modify] at hq
    by_cases hqk : q = k
    · simp only [hqk, if_true] at hq
      cases hfk : find fs k with
      | none => rw [hfk] at hq; simp at hq
      | some m0 => exact ⟨m0, by rw [hqk, hfk]⟩
    · simp only [hqk, if_false] at hq
      exact ⟨m, hq⟩
  obtain ⟨m0, hm0⟩ := hq0
  obtain ⟨h1, h2⟩ := hwf q m0 hm0
  refine ⟨h1, ?_⟩
  rcases h2 with h2 | ⟨p, hp, hd⟩
  · exact Or.inl h2
  · right
    rw [find_modify]
    by_cases hpk : q.dropLast = k
    · exact ⟨f p, by rw [if_pos hpk, hp]; rfl, by rw [hf, hd]⟩
    · exact ⟨p, by simp [hpk, hp], hd⟩

/-- Nothing is stored right below a key that holds a file that is not a directory. -/
theorem wf_no_children {fs : FS} (hwf : wf fs = true) {k : Key} {n : Node}
    (hk : find fs k = some n) (hn : n.kind ≠ Kind.dir) :
    ∀ q m, find fs q = some m → q ≠ [] → q.dropLast ≠ k := by
  intro q m hq hq0 e
  obtain ⟨p, hp, hd⟩ := wf_parent hwf hq hq0
  rw [e, hk] at hp
  simp only [Option.some.injEq] at hp
  exact hn (by rw [hp, hd])

/-- Nothing is stored right below a key that is not stored. -/
theorem wf_no_children_none {fs : FS} (hwf : wf fs = true) {k : Key} (hk : find fs k = none) :
    ∀ q m, find fs q = some m → q ≠ [] → q.dropLast ≠ k := by
  intro q m hq hq0 e
  obtain ⟨p, hp, _⟩ := wf_parent hwf hq hq0
  rw [e, hk] at hp
  cases hp

theorem resolve_names (p : Str) : ∀ c ∈ resolve p, filepath.properName c = true := by
  obtain ⟨ns, n, hs, hns, hn⟩ := filepath.cleanStack_valid true p
  have : n = 0 := hn rfl
  subst this
  intro c hc
  unfold resolve at hc
  rw [hs] at hc
  exact hns c (by simpa using hc)

/-- In a well-formed filesystem every ancestor of a stored key is stored. -/
theorem wf_prefix_stored {fs : FS} (hwf : wf fs = true) {k q : Key} {n : Node}
    (hk : find fs k = some n) (hq : q <+: k) : ∃ m, find fs q = some m := by
  obtain ⟨s, rfl⟩ := hq
  by_cases hs : s = []
  · subst hs
    exact ⟨n, by simpa using hk⟩
  · obtain ⟨p, hp, _⟩ := wf_ancestor hwf q s n hs hk
    exact ⟨p, hp⟩

end FS
namespace FS

/-- What a successful `rename` of a file that is not a directory onto another path does. -/
theorem rename_file {fs fs1 : FS} {old new : Str} {n : Node}
    (hsrc : lookupKey fs (resolve old) = .ok n) (hn : n.kind ≠ Kind.dir)
    (hne : resolve old ≠ resolve new) (hren : rename fs old new = .ok fs1) :
    fs1 = insert (erase fs (resolve old)) (resolve new) n ∧
      (∃ pn, lookupKey fs (resolve new).dropLast = .ok pn ∧ pn.kind = Kind.dir) ∧
      resolve new ≠ [] ∧
      (find fs (resolve new) = none ∨
        ∃ m, find fs (resolve new) = some m ∧ m.kind ≠ Kind.dir) := by
  unfold rename at hren
  simp only [hsrc] at hren
  cases hp : lookupKey fs (resolve new).dropLast with
  | error e => rw [hp] at hren; cases hren
  | ok pn =>
    rw [hp] at hren
    simp only at hren
    by_cases hpd : pn.kind = Kind.dir
    · simp only [hpd, ne_eq, not_true_eq_false, if_false] at hren
      by_cases h0 : resolve old = [] ∨ resolve new = []
      · simp [h0] at hren
      · simp only [h0, if_false, hne, hn] at hren
        push_neg at h0
        cases hf : find fs (resolve new) with
        | none =>
          rw [hf] at hren
          simp only [Except.ok.injEq] at hren
          exact ⟨hren.symm, ⟨pn, rfl, hpd⟩, h0.2, Or.inl rfl⟩
        | some m =>
          rw [hf] at hren
          by_cases hm : m.kind = Kind.dir
          · simp [hm] at hren
          · simp only [hm, if_false, Except.ok.injEq] at hren
            exact ⟨hren.symm, ⟨pn, rfl, hpd⟩, h0.2, Or.inr ⟨m, rfl, hm⟩⟩
    · simp [hpd] at hren

/-- A successful `rename` of a file that is not a directory keeps the filesystem well formed. -/
theorem wf_rename_file {fs fs1 : FS} (hwf : wf fs = true) {old new : Str} {n : Node}
    (hsrc : lookupKey fs (resolve old) = .ok n) (hn : n.kind ≠ Kind.dir)
    (hne : resolve old ≠ resolve new) (hren : rename fs old new = .ok fs1) :
    wf fs1 = true := by
  obtain ⟨h1, ⟨pn, hpn, hpd⟩, hnew0, hold⟩ := rename_file hsrc hn hne hren
  have hfo := find_of_lookupKey hsrc
  have hfp := find_of_lookupKey hpn
  have hwe : wf (erase fs (resolve old)) = true := wf_erase hwf _ (wf_no_children hwf hfo hn)
  have hpne : (resolve new).dropLast ≠ resolve old := by
    intro e
    rw [e, hfo] at hfp
    simp only [Option.some.injEq] at hfp
    exact hn (by rw [hfp, hpd])
  rw [h1]
  refine wf_insert hwe _ n (resolve_names new) (Or.inr ⟨pn, ?_, hpd⟩) (Or.inr ?_)
  · rw [find_erase, if_neg hpne]; exact hfp
  · intro q m hq hq0
    rw [find_erase] at hq
    by_cases hqo : q = resolve old
    · simp [hqo] at hq
    · simp only [hqo, if_false] at hq
      rcases hold with h | ⟨m1, hm1, hk1⟩
      · exact wf_no_children_none hwf h q m hq hq0
      · exact wf_no_children hwf hm1 hk1 q m hq hq0

end FS

/-- Claim C3, as amended: when the source file exists as a regular file, the
destination directory exists as a directory, the destination file `destName`
exists as a regular file and is another path than the source path, `Owrite` is
true and the rename succeeds, `mover` runs to its end; afterwards the
destination path holds a regular file with the former content of the source
file and nothing is stored at the source path.  The filesystem is well formed.
Distinct roots of a configuration give different paths for every path under the
source root (`destName_ne_source`). -/
theorem mover_overwrites_destination (w : World) (config : tomlConfig) (path : Str)
    (src dir old : Node) (fs1 : FS) (hwf : FS.wf w.fs = true)
    (hsrc : FS.lstat w.fs path = .ok src) (hsk : src.kind = Kind.regular)
    (hdir : FS.stat w.fs (destPath path config) = .ok dir) (hdk : dir.kind = Kind.dir)
    (_hold : FS.lstat w.fs (destName path config) = .ok old) (_hok : old.kind = Kind.regular)
    (how : config.Owrite = true)
    (hren : FS.rename w.fs path (destName path config) = .ok fs1)
    (hne : FS.resolve path ≠ FS.resolve (destName path config)) :
    ∃ w1 n, mover w path config = .ok (Exit.moved, w1) ∧
      FS.lstat w1.fs (destName path config) = .ok n ∧ n.kind = Kind.regular ∧
      n.data = src.data ∧
      FS.find w1.fs (FS.resolve path) = none ∧ ∀ m, FS.lstat w1.fs path ≠ .ok m := by
  have hsn : src.kind ≠ Kind.dir := by rw [hsk]; decide
  obtain ⟨h1, _, _, _⟩ := FS.rename_file hsrc hsn hne hren
  have hwf1 : FS.wf fs1 = true := FS.wf_rename_file hwf hsrc hsn hne hren
  have hfd : FS.find fs1 (FS.resolve (destName path config)) = some src := by
    rw [h1, FS.find_insert]; simp
  have hfs : FS.find fs1 (FS.resolve path) = none := by
    rw [h1, FS.find_insert, if_neg hne, FS.find_erase]; simp
  have hcd := createDirectory_existing_dir (w.log (Call.mover path)) config
    (destPath path config) dir hdir hdk
  have hnolstat : ∀ (fs : FS), FS.find fs (FS.resolve path) = none →
      ∀ m, FS.lstat fs path ≠ .ok m := by
    intro fs hf m hm
    have := FS.find_of_lookupKey hm
    rw [hf] at this
    cases this
  by_cases hu : config.Uid ≠ -1 ∧ config.Gid ≠ -1
  · have hfol : FS.followKey fs1 40 (FS.resolve (destName path config))
        = .ok (FS.resolve (destName path config), src) :=
      FS.followKey_of_lookupKey 40 (FS.lookupKey_of_find hwf1 hfd) (by rw [hsk]; decide)
    let f : Node → Node := FS.setOwner config.Uid config.Gid
    have hwf2 : FS.wf (FS.modify fs1 (FS.resolve (destName path config)) f) = true :=
      FS.wf_modify hwf1 _ f (fun _ => rfl)
    have hfd2 : FS.find (FS.modify fs1 (FS.resolve (destName path config)) f)
        (FS.resolve (destName path config)) = some (f src) := by
      rw [FS.find_modify, hfd]; simp
    have hfs2 : FS.find (FS.modify fs1 (FS.resolve (destName path config)) f)
        (FS.resolve path) = none := by
      rw [FS.find_modify, if_neg hne, hfs]
    refine ⟨{ ({ (((w.log (Call.mover path)).log (Call.stat (destPath path config))).log
        (Call.stat (destName path config))).log (Call.rename path (destName path config))
          with fs := fs1 } : World).log (Call.chown (destName path config) config.Uid config.Gid)
        with fs := FS.modify fs1 (FS.resolve (destName path config)) f },
      f src, ?_, FS.lookupKey_of_find hwf2 hfd2, hsk, rfl, hfs2, hnolstat _ hfs2⟩
    unfold mover
    simp only [hcd, os.Stat, World.log_fs, how, Bool.not_true, Bool.and_false,
      Bool.false_eq_true, if_false, os.Rename, hren]
    rw [if_pos hu]
    simp only [os.Chown, FS.chown, World.log_fs, hfol]
  · refine ⟨{ (((w.log (Call.mover path)).log (Call.stat (destPath path config))).log
        (Call.stat (destName path config))).log (Call.rename path (destName path config))
          with fs := fs1 },
      src, ?_, FS.lookupKey_of_find hwf1 hfd, hsk, rfl, hfs, hnolstat _ hfs⟩
    unfold mover
    simp only [hcd, os.Stat, World.log_fs, how, Bool.not_true, Bool.and_false,
      Bool.false_eq_true, if_false, os.Rename, hren]
    rw [if_neg hu]

/-- Witness of `mover_overwrites_destination`: `/s/f` replaces `/d/f`. -/
theorem mover_overwrites_destination_witness :
    ∃ w1 n, mover (Sample.world Sample.overwriteFS) "/s/f".toList Sample.overwriteConfig
        = .ok (Exit.moved, w1) ∧
      FS.lstat w1.fs (destName "/s/f".toList Sample.overwriteConfig) = .ok n ∧
      n.kind = Kind.regular ∧ n.data = [1] ∧
      FS.find w1.fs (FS.resolve "/s/f".toList) = none ∧
      ∀ m, FS.lstat w1.fs "/s/f".toList ≠ .ok m :=
  mover_overwrites_destination (Sample.world Sample.overwriteFS) Sample.overwriteConfig
    "/s/f".toList (Sample.fileNode 0 0 [1]) (Sample.dirNode 0 0) (Sample.fileNode 5 5 [2])
    ((FS.rename Sample.overwriteFS "/s/f".toList "/d/f".toList).toOption.getD [])
    (by decide) (by decide) (by decide) (by decide) (by decide) (by decide) (by decide)
    (by decide) (by decide) (by decide)
/-! ## Failing inputs -/

set_option maxRecDepth 100000 in
/-- Claim C10 fails: a `stat` or `lstat` failure other than "not exists" leaves no file
information, and the code reads its mode all the same.  With `/d/a` a regular file,
`stat` of the destination directory `/d/a/b` of the file `/s/a/b/f` fails with
`ENOTDIR` and `createDirectory`, and so `mover`, panic; the task of an event on
`/d/a/x` panics after the failed `lstat`; and with the source directory missing the
callbacks of both walks of `main` panic on the missing file information. -/
theorem missing_file_info_panics :
    FS.stat Sample.deepConflictFS "/d/a/b".toList = .error Errno.ENOTDIR ∧
      createDirectory (Sample.world Sample.deepConflictFS) "/d/a/b".toList Sample.config
        = .error Panic.nilDereference ∧
      mover (Sample.world Sample.deepConflictFS) "/s/a/b/f".toList Sample.config
        = .error Panic.nilDereference ∧
      eventTask Sample.anyPath (Sample.world Sample.deepConflictFS) Sample.config
        { Name := "/d/a/x".toList, Op := fsnotify.Create } = .error Panic.nilDereference ∧
      sweepList (Sample.world Sample.noSourceFS) Sample.config = .error Panic.nilDereference ∧
      startWatching (Sample.world Sample.noSourceFS) Sample.config
        = .error Panic.nilDereference := by
  decide

set_option maxRecDepth 100000 in
/-- Claim C7 fails in shallow mode: the entry `/s/l` is a symbolic link (to the
existing file `/t`), the shallow sweep lists it because it is not a directory,
`stat` finds it to exist, and it is handed to `mover`, which moves the link to
`/d/l`. -/
theorem shallow_sweep_moves_symlink :
    FS.lstat Sample.linkFS "/s/l".toList = .ok (Sample.linkNode 0 0 "/t".toList) ∧
      (sweepList (Sample.world Sample.linkFS) Sample.shallowConfig).toOption.map Prod.fst
        = some ["/s/l".toList] ∧
      (initialSweep Sample.anyPath (Sample.world Sample.linkFS) Sample.shallowConfig).toOption.map
        (fun w => decide (Call.mover "/s/l".toList ∈ w.trace)) = some true ∧
      (initialSweep Sample.anyPath (Sample.world Sample.linkFS) Sample.shallowConfig).toOption.map
        (fun w => (FS.lstat w.fs "/s/l".toList, (FS.lstat w.fs "/d/l".toList).toOption.map
          (fun n => n.kind)))
        = some (.error Errno.ENOENT, some Kind.symlink) := by
  decide

set_option maxRecDepth 100000 in
/-- Claim C5 fails when the first element of the target below the destination root
exists: for the target `/d/a/b` with `/d/a` present, the walk starts at `/d/a`,
which existed before the call (the first ancestor that did not exist is `/d/a/b`),
and the file `/d/a/old`, which existed before the call with owner `7:7`, is owned
by `1000:1000` afterwards. -/
theorem chown_walk_existing_counterexample :
    FS.stat Sample.partialFS "/d/a/b".toList = .error Errno.ENOENT ∧
      FS.lstat Sample.partialFS "/d/a".toList = .ok (Sample.dirNode 0 0) ∧
      FS.lstat Sample.partialFS "/d/a/old".toList = .ok (Sample.fileNode 7 7 [3]) ∧
      chownRoot "/d/a/b".toList Sample.config = "/d/a".toList ∧
      (createDirectory (Sample.world Sample.partialFS) "/d/a/b".toList Sample.config).toOption.map
        (fun r => (r.1, FS.lstat r.2.fs "/d/a/old".toList))
        = some (true, .ok (Sample.fileNode 1000 1000 [3])) := by
  decide

set_option maxRecDepth 100000 in
/-- Claim C6 fails when the destination root does not exist: moving `/s/a/f` with
`/d` missing creates `/d` and `/d/a`; the walk starts at `/d/a`, and the new
directory `/d` stays with the owner of the process, `0:0`, not `1000:1000`.  It
also fails for `Uid = Gid = 4294967295`, which differ from `-1` but are the `-1`
of the system call: moving `/s/a/b/f` with `/d` present creates `/d/a` and
`/d/a/b`, and both and the moved file keep their owner `0:0`. -/
theorem new_directories_not_owned_counterexample :
    (FS.find Sample.noDestinFS ["d".toList] = none ∧
      FS.stat Sample.noDestinFS (destPath "/s/a/f".toList Sample.config) = .error Errno.ENOENT ∧
      (mover (Sample.world Sample.noDestinFS) "/s/a/f".toList Sample.config).toOption.map
        (fun r => r.1) = some Exit.moved ∧
      (mover (Sample.world Sample.noDestinFS) "/s/a/f".toList Sample.config).toOption.map
        (fun r => FS.lstat r.2.fs "/d".toList) = some (.ok (Sample.dirNode 0 0)) ∧
      (mover (Sample.world Sample.noDestinFS) "/s/a/f".toList Sample.config).toOption.map
        (fun r => FS.lstat r.2.fs "/d/a".toList) = some (.ok (Sample.dirNode 1000 1000)) ∧
      (mover (Sample.world Sample.noDestinFS) "/s/a/f".toList Sample.config).toOption.map
        (fun r => FS.lstat r.2.fs "/d/a/f".toList)
          = some (.ok (Sample.fileNode 1000 1000 [1]))) ∧
    (Sample.maxIdConfig.Uid ≠ -1 ∧ Sample.maxIdConfig.Gid ≠ -1 ∧
      FS.lstat Sample.deepFS "/d".toList = .ok (Sample.dirNode 0 0) ∧
      FS.find Sample.deepFS ["d".toList, "a".toList] = none ∧
      FS.stat Sample.deepFS (destPath "/s/a/b/f".toList Sample.maxIdConfig)
        = .error Errno.ENOENT ∧
      (mover (Sample.world Sample.deepFS) "/s/a/b/f".toList Sample.maxIdConfig).toOption.map
        (fun r => r.1) = some Exit.moved ∧
      (mover (Sample.world Sample.deepFS) "/s/a/b/f".toList Sample.maxIdConfig).toOption.map
        (fun r => FS.lstat r.2.fs "/d/a".toList) = some (.ok (Sample.dirNode 0 0)) ∧
      (mover (Sample.world Sample.deepFS) "/s/a/b/f".toList Sample.maxIdConfig).toOption.map
        (fun r => FS.lstat r.2.fs "/d/a/b".toList) = some (.ok (Sample.dirNode 0 0)) ∧
      (mover (Sample.world Sample.deepFS) "/s/a/b/f".toList Sample.maxIdConfig).toOption.map
        (fun r => FS.lstat r.2.fs "/d/a/b/f".toList)
          = some (.ok (Sample.fileNode 0 0 [1]))) := by
  decide

set_option maxRecDepth 100000 in
/-- Claim C3 fails when source and destination are the same path: with the source
root `/s` as destination root and overwriting enabled, the source file `/s/f`
exists, the destination directory `/s` is a directory, the destination file
`destName`, `/s/f` again, exists as a regular file and the rename succeeds (it
has nothing to do); `mover` runs to its end and `/s/f` is still there. -/
theorem same_path_counterexample :
    FS.lstat Sample.overwriteFS "/s/f".toList = .ok (Sample.fileNode 0 0 [1]) ∧
      FS.stat Sample.overwriteFS (destPath "/s/f".toList Sample.sameRootConfig)
        = .ok (Sample.dirNode 0 0) ∧
      destName "/s/f".toList Sample.sameRootConfig = "/s/f".toList ∧
      FS.lstat Sample.overwriteFS (destName "/s/f".toList Sample.sameRootConfig)
        = .ok (Sample.fileNode 0 0 [1]) ∧
      Sample.sameRootConfig.Owrite = true ∧
      FS.rename Sample.overwriteFS "/s/f".toList (destName "/s/f".toList Sample.sameRootConfig)
        = .ok Sample.overwriteFS ∧
      (mover (Sample.world Sample.overwriteFS) "/s/f".toList Sample.sameRootConfig).toOption.map
        (fun r => r.1) = some Exit.moved ∧
      (mover (Sample.world Sample.overwriteFS) "/s/f".toList Sample.sameRootConfig).toOption.map
        (fun r => FS.lstat r.2.fs "/s/f".toList) = some (.ok (Sample.fileNode 1000 1000 [1])) := by
  decide
/-! ## The walk that changes owners -/

namespace FS

theorem mem_insertKey (x k : Key) (l : List Key) : x ∈ insertKey k l ↔ x = k ∨ x ∈ l := by
  induction l with
  | nil => simp [insertKey]
  | cons h t ih =>
    unfold insertKey
    by_cases h1 : k = h
    · subst h1
      simp only [if_true, List.mem_cons]
      tauto
    · simp only [h1, if_false]
      by_cases h2 : keyLe k h = true
      · simp [h2]
      · rw [if_neg h2, List.mem_cons, ih, List.mem_cons]
        tauto

theorem mem_sortKeys (x : Key) (ks : List Key) : x ∈ sortKeys ks ↔ x ∈ ks := by
  induction ks with
  | nil => simp [sortKeys]
  | cons k ks ih =>
    have : sortKeys (k :: ks) = insertKey k (sortKeys ks) := rfl
    rw [this, mem_insertKey, ih]
    simp

theorem mem_keys_iff (fs : FS) (k : Key) : k ∈ fs.map Prod.fst ↔ ∃ n, find fs k = some n := by
  constructor
  · intro h
    obtain ⟨e, he, hk⟩ := List.mem_map.1 h
    obtain ⟨k', n⟩ := e
    simp only at hk
    subst hk
    exact find_of_mem he
  · rintro ⟨n, hn⟩
    exact List.mem_map.2 ⟨(k, n), mem_of_find hn, rfl⟩

theorem mem_subtree (fs : FS) (root k : Key) :
    k ∈ subtree fs root ↔ (∃ n, find fs k = some n) ∧ root <+: k := by
  unfold subtree
  rw [mem_sortKeys, List.mem_filter, mem_keys_iff, List.isPrefixOf_iff_prefix]

theorem setOwner_kind (u g : Int) (n : Node) : (setOwner u g n).kind = n.kind := rfl

theorem setOwner_idem (u g : Int) (n : Node) : setOwner u g (setOwner u g n) = setOwner u g n := by
  unfold setOwner
  by_cases hu : id32 u = 4294967295 <;> by_cases hg : id32 g = 4294967295 <;> simp [hu, hg]

theorem id32_of_range (x : Int) (h0 : 0 ≤ x) (h1 : x < 4294967295) :
    id32 x = x ∧ id32 x ≠ 4294967295 := by
  have : id32 x = x := by
    unfold id32
    exact Int.emod_eq_of_lt h0 (by omega)
  rw [this]
  exact ⟨rfl, by omega⟩

theorem setOwner_owner (u g : Int) (hu0 : 0 ≤ u) (hu1 : u < 4294967295)
    (hg0 : 0 ≤ g) (hg1 : g < 4294967295) (n : Node) :
    (setOwner u g n).uid = u ∧ (setOwner u g n).gid = g := by
  obtain ⟨a1, a2⟩ := id32_of_range u hu0 hu1
  obtain ⟨b1, b2⟩ := id32_of_range g hg0 hg1
  simp [setOwner, a1, a2, b1, b2, a1 ▸ a2, b1 ▸ b2]

/-- What `chown` changes: one node, the one the path leads to, which is the
node at the path itself when that is not a symbolic link. -/
theorem chown_spec {fs fs1 : FS} {p : Str} {u g : Int} (h : chown fs p u g = .ok fs1) :
    ∃ k n, followKey fs 40 (resolve p) = .ok (k, n) ∧ fs1 = modify fs k (setOwner u g) ∧
      (∀ m, find fs (resolve p) = some m → m.kind ≠ Kind.symlink → k = resolve p) := by
  unfold chown at h
  cases hf : followKey fs 40 (resolve p) with
  | error e => rw [hf] at h; cases h
  | ok r =>
    obtain ⟨k, n⟩ := r
    rw [hf] at h
    simp only [Except.ok.injEq] at h
    refine ⟨k, n, rfl, h.symm, ?_⟩
    intro m hm hk
    obtain ⟨m1, hm1⟩ := lookupKey_of_followKey hf
    have := find_of_lookupKey hm1
    rw [hm] at this
    simp only [Option.some.injEq] at this
    subst this
    rw [followKey_of_lookupKey 40 hm1 hk] at hf
    simp only [Except.ok.injEq, Prod.mk.injEq] at hf
    exact hf.1.symm

end FS

theorem OwnerStep.same (u g : Int) (fs : FS) : OwnerStep u g fs fs := fun _ => Or.inl rfl

theorem OwnerStep.andThen {u g : Int} {a b c : FS} (h1 : OwnerStep u g a b) (h2 : OwnerStep u g b c) :
    OwnerStep u g a c := by
  intro k
  rcases h1 k with h | h <;> rcases h2 k with h' | h'
  · left; rw [h', h]
  · right; rw [h', h]
  · right; rw [h', h]
  · right
    rw [h', h]
    cases FS.find a k with
    | none => rfl
    | some n => simp [FS.setOwner_idem]

theorem OwnerStep.of_modify (u g : Int) (fs : FS) (k : Key) :
    OwnerStep u g fs (FS.modify fs k (FS.setOwner u g)) := by
  intro q
  rw [FS.find_modify]
  by_cases h : q = k
  · right; simp [h]
  · left; simp [h]

theorem OwnerStep.kind {u g : Int} {a b : FS} (h : OwnerStep u g a b) (k : Key) :
    (FS.find b k).map (fun n => n.kind) = (FS.find a k).map (fun n => n.kind) := by
  rcases h k with h | h
  · rw [h]
  · rw [h]
    cases FS.find a k <;> rfl

theorem OwnerStep.none_iff {u g : Int} {a b : FS} (h : OwnerStep u g a b) (k : Key) :
    FS.find b k = none ↔ FS.find a k = none := by
  rcases h k with h | h
  · rw [h]
  · rw [h]
    cases FS.find a k <;> simp

theorem OwnerStep.data {u g : Int} {a b : FS} (h : OwnerStep u g a b) {k : Key} {n : Node}
    (hn : FS.find a k = some n) :
    ∃ m, FS.find b k = some m ∧ m.kind = n.kind ∧ m.data = n.data ∧ m.target = n.target := by
  rcases h k with h | h
  · exact ⟨n, by rw [h, hn], rfl, rfl, rfl⟩
  · exact ⟨FS.setOwner u g n, by rw [h, hn]; rfl, rfl, rfl, rfl⟩

theorem OwnerStep.owned {u g : Int} {a b : FS} (h : OwnerStep u g a b) {k : Key} {n : Node}
    (hn : FS.find a k = some (FS.setOwner u g n)) : FS.find b k = some (FS.setOwner u g n) := by
  rcases h k with h | h
  · rw [h, hn]
  · rw [h, hn]; simp [FS.setOwner_idem]

theorem os.Chown_spec (w : World) (name : Str) (u g : Int) :
    ((os.Chown w name u g).1 ≠ none ∧ (os.Chown w name u g).2.fs = w.fs) ∨
      ((os.Chown w name u g).1 = none ∧ ∃ k n, FS.followKey w.fs 40 (FS.resolve name) = .ok (k, n) ∧
        (os.Chown w name u g).2.fs = FS.modify w.fs k (FS.setOwner u g) ∧
        (∀ m, FS.find w.fs (FS.resolve name) = some m → m.kind ≠ Kind.symlink →
          k = FS.resolve name)) := by
  unfold os.Chown
  cases h : FS.chown w.fs name u g with
  | error e => left; simp [World.log_fs]
  | ok fs1 =>
    right
    obtain ⟨k, n, h1, h2, h3⟩ := FS.chown_spec h
    exact ⟨rfl, k, n, h1, h2, h3⟩
theorem chownWalkFn_step (config : tomlConfig) (s : World) (name : Str)
    (info : Except Errno Node) :
    ∃ e s1, chownWalkFn config s name info = .ok (e, s1) ∧
      ((e ≠ none ∧ s1.fs = s.fs) ∨
        (e = none ∧ ∃ k n, FS.followKey s.fs 40 (FS.resolve name) = .ok (k, n) ∧
          s1.fs = FS.modify s.fs k (FS.setOwner config.Uid config.Gid) ∧
          (∀ m, FS.find s.fs (FS.resolve name) = some m → m.kind ≠ Kind.symlink →
            k = FS.resolve name))) := by
  cases info with
  | error er => exact ⟨some er, s, rfl, Or.inl ⟨by simp, rfl⟩⟩
  | ok n =>
    refine ⟨(os.Chown s name config.Uid config.Gid).1, (os.Chown s name config.Uid config.Gid).2,
      rfl, ?_⟩
    exact os.Chown_spec s name config.Uid config.Gid

theorem chownWalkFn_ownerStep (config : tomlConfig) (s : World) (name : Str)
    (info : Except Errno Node) (e : Option Errno) (s1 : World)
    (h : chownWalkFn config s name info = .ok (e, s1)) :
    OwnerStep config.Uid config.Gid s.fs s1.fs := by
  obtain ⟨e', s1', h', hc⟩ := chownWalkFn_step config s name info
  rw [h'] at h
  simp only [Except.ok.injEq, Prod.mk.injEq] at h
  obtain ⟨rfl, rfl⟩ := h
  rcases hc with ⟨_, hfs⟩ | ⟨_, k, n, _, hfs, _⟩
  · rw [hfs]; exact OwnerStep.same _ _ _
  · rw [hfs]; exact OwnerStep.of_modify _ _ _ _

/-- The walk of `createDirectory` only sets owners. -/
theorem chownWalk_ownerStep (config : tomlConfig) :
    ∀ (names : List Str) (s : World) (e : Option Errno) (s1 : World),
      filepath.walkLoop World.fs (chownWalkFn config) names s = .ok (e, s1) →
      OwnerStep config.Uid config.Gid s.fs s1.fs := by
  intro names
  induction names with
  | nil =>
    intro s e s1 h
    simp only [filepath.walkLoop, Except.ok.injEq, Prod.mk.injEq] at h
    rw [← h.2]
    exact OwnerStep.same _ _ _
  | cons name rest ih =>
    intro s e s1 h
    unfold filepath.walkLoop at h
    obtain ⟨e', s', h', _⟩ := chownWalkFn_step config s name (FS.lstat s.fs name)
    have hstep := chownWalkFn_ownerStep config s name _ e' s' h'
    rw [h'] at h
    cases e' with
    | some er =>
      simp only [Except.ok.injEq, Prod.mk.injEq] at h
      rw [← h.2]
      exact hstep
    | none =>
      simp only at h
      exact hstep.andThen (ih s' e s1 h)

/-- The walk of `createDirectory` leaves every node alone that it does not visit,
when no visited entry is a symbolic link. -/
theorem chownWalk_frame (config : tomlConfig) :
    ∀ (names : List Str) (s : World) (e : Option Errno) (s1 : World),
      filepath.walkLoop World.fs (chownWalkFn config) names s = .ok (e, s1) →
      (∀ name ∈ names, ∀ m, FS.find s.fs (FS.resolve name) = some m → m.kind ≠ Kind.symlink) →
      ∀ k, k ∉ names.map FS.resolve → FS.find s1.fs k = FS.find s.fs k := by
  intro names
  induction names with
  | nil =>
    intro s e s1 h _ k _
    simp only [filepath.walkLoop, Except.ok.injEq, Prod.mk.injEq] at h
    rw [← h.2]
  | cons name rest ih =>
    intro s e s1 h hsym k hk
    unfold filepath.walkLoop at h
    obtain ⟨e', s', h', hc⟩ := chownWalkFn_step config s name (FS.lstat s.fs name)
    have hstep := chownWalkFn_ownerStep config s name _ e' s' h'
    rw [h'] at h
    simp only [List.map_cons, List.mem_cons, not_or] at hk
    have hone : FS.find s'.fs k = FS.find s.fs k := by
      rcases hc with ⟨_, hfs⟩ | ⟨_, k1, n1, hfol, hfs, hkey⟩
      · rw [hfs]
      · obtain ⟨m, hm⟩ := FS.lookupKey_of_followKey hfol
        have hfm := FS.find_of_lookupKey hm
        have hk1 : k1 = FS.resolve name := hkey m hfm (hsym name (by simp) m hfm)
        rw [hfs, FS.find_modify, hk1, if_neg hk.1]
    cases e' with
    | some er =>
      simp only [Except.ok.injEq, Prod.mk.injEq] at h
      rw [← h.2]
      exact hone
    | none =>
      simp only at h
      have hsym' : ∀ name' ∈ rest, ∀ m, FS.find s'.fs (FS.resolve name') = some m →
          m.kind ≠ Kind.symlink := by
        intro name' hn' m hm
        have hkind := hstep.kind (FS.resolve name')
        rw [hm] at hkind
        cases hf : FS.find s.fs (FS.resolve name') with
        | none => rw [hf] at hkind; simp at hkind
        | some m0 =>
          rw [hf] at hkind
          simp only [Option.map_some', Option.some.injEq] at hkind
          rw [hkind]
          exact hsym name' (by simp [hn']) m0 hf
      rw [ih s' e s1 h hsym' k hk.2, hone]

/-- A walk of `createDirectory` that ends without error has set the owner of every
visited entry that is not a symbolic link. -/
theorem chownWalk_owned (config : tomlConfig) :
    ∀ (names : List Str) (s s1 : World),
      filepath.walkLoop World.fs (chownWalkFn config) names s = .ok (none, s1) →
      ∀ name ∈ names, ∀ m, FS.find s.fs (FS.resolve name) = some m → m.kind ≠ Kind.symlink →
        FS.find s1.fs (FS.resolve name) = some (FS.setOwner config.Uid config.Gid m) := by
  intro names
  induction names with
  | nil => intro s s1 _ name hn; simp at hn
  | cons name0 rest ih =>
    intro s s1 h name hn m hm hk
    unfold filepath.walkLoop at h
    obtain ⟨e', s', h', hc⟩ := chownWalkFn_step config s name0 (FS.lstat s.fs name0)
    have hstep := chownWalkFn_ownerStep config s name0 _ e' s' h'
    rw [h'] at h
    cases e' with
    | some er => simp at h
    | none =>
      simp only at h
      have hrest := chownWalk_ownerStep config rest s' none s1 h
      rcases List.mem_cons.1 hn with hn0 | hnr
      · subst hn0
        rcases hc with ⟨hne, _⟩ | ⟨_, k1, n1, _, hfs, hkey⟩
        · exact absurd rfl hne
        · have hk1 : k1 = FS.resolve name := hkey m hm hk
          have : FS.find s'.fs (FS.resolve name) = some (FS.setOwner config.Uid config.Gid m) := by
            rw [hfs, FS.find_modify, hk1, if_pos rfl, hm]; rfl
          exact hrest.owned this
      · rcases hstep (FS.resolve name) with hs | hs
        · exact ih s' s1 h name hnr m (by rw [hs, hm]) hk
        · have hm' : FS.find s'.fs (FS.resolve name)
              = some (FS.setOwner config.Uid config.Gid m) := by rw [hs, hm]; rfl
          have := ih s' s1 h name hnr _ hm' (by rw [FS.setOwner_kind]; exact hk)
          rw [this, FS.setOwner_idem]

/-! ## The names the walk passes -/

theorem walkName_ne_nil (root : Str) (hroot : root ≠ []) : ∀ rel, filepath.walkName root rel ≠ [] := by
  intro rel
  induction rel using List.reverseRecOn with
  | nil => simpa [filepath.walkName] using hroot
  | append_singleton rel c ih =>
    unfold filepath.walkName at ih ⊢
    rw [List.foldl_append]
    simp only [List.foldl_cons, List.foldl_nil]
    rw [filepath.Join_pair_eq _ _ ih]
    exact filepath.Clean_ne_nil _

theorem resolve_walkName (root : Str) (hroot : root ≠ []) :
    ∀ rel, (∀ c ∈ rel, filepath.properName c = true) →
      FS.resolve (filepath.walkName root rel) = FS.resolve root ++ rel := by
  intro rel
  induction rel using List.reverseRecOn with
  | nil => intro _; simp [filepath.walkName]
  | append_singleton rel c ih =>
    intro h
    have hrel : ∀ x ∈ rel, filepath.properName x = true := fun x hx => h x (by simp [hx])
    have hc : filepath.properName c = true := h c (by simp)
    have hne := walkName_ne_nil root hroot rel
    unfold filepath.walkName at ih hne ⊢
    rw [List.foldl_append]
    simp only [List.foldl_cons, List.foldl_nil]
    rw [FS.resolve_Join_proper _ _ hne hc, ih hrel, List.append_assoc]
theorem chownWalk_total (config : tomlConfig) :
    ∀ (names : List Str) (s : World),
      ∃ e s1, filepath.walkLoop World.fs (chownWalkFn config) names s = .ok (e, s1) := by
  intro names
  induction names with
  | nil => intro s; exact ⟨none, s, rfl⟩
  | cons name rest ih =>
    intro s
    obtain ⟨e', s', h', _⟩ := chownWalkFn_step config s name (FS.lstat s.fs name)
    unfold filepath.walkLoop
    rw [h']
    cases e' with
    | some er => exact ⟨some er, s', rfl⟩
    | none => exact ih s'

/-! ## Creation of the directory chain -/

namespace FS

/-- What `mkdirFrom` stores: what was stored stays as it was, and what is new is a
directory of the process on the way down the elements given. -/
theorem mkdirFrom_spec (u g : Int) :
    ∀ (cs : List Str) (fs : FS) (pre : Key) (fs2 : FS),
      mkdirFrom u g fs pre cs = .ok fs2 →
      (∀ k n, find fs k = some n → find fs2 k = some n) ∧
        (∀ k n, find fs k = none → find fs2 k = some n →
          n = newDir u g ∧ pre <+: k ∧ k <+: pre ++ cs ∧ k ≠ pre) := by
  intro cs
  induction cs with
  | nil =>
    intro fs pre fs2 h
    simp only [mkdirFrom, Except.ok.injEq] at h
    subst h
    refine ⟨fun _ _ h => h, ?_⟩
    intro k n h1 h2
    rw [h1] at h2
    cases h2
  | cons c cs ih =>
    intro fs pre fs2 h
    unfold mkdirFrom at h
    have hpre : pre ++ [c] ++ cs = pre ++ c :: cs := by simp
    cases hf : find fs (pre ++ [c]) with
    | none =>
      rw [hf] at h
      simp only at h
      obtain ⟨i1, i2⟩ := ih _ _ _ h
      constructor
      · intro k n hk
        apply i1
        rw [find_insert]
        have : k ≠ pre ++ [c] := by
          intro e
          rw [e, hf] at hk
          cases hk
        simp [this, hk]
      · intro k n hk1 hk2
        by_cases hkc : k = pre ++ [c]
        · have hnew : find (insert fs (pre ++ [c]) (newDir u g)) k = some (newDir u g) := by
            rw [find_insert]; simp [hkc]
          have := i1 k _ hnew
          rw [this] at hk2
          simp only [Option.some.injEq] at hk2
          refine ⟨hk2.symm, ?_, ?_, ?_⟩
          · rw [hkc]; exact List.prefix_append _ _
          · rw [hkc, ← hpre]; exact List.prefix_append _ _
          · rw [hkc]; intro e
            have := congrArg List.length e
            simp at this
        · have hnone : find (insert fs (pre ++ [c]) (newDir u g)) k = none := by
            rw [find_insert]; simp [hkc, hk1]
          obtain ⟨j1, j2, j3, _⟩ := i2 k n hnone hk2
          refine ⟨j1, (List.prefix_append _ _).trans j2, by rwa [hpre] at j3, ?_⟩
          intro e
          rw [e] at j2
          have := j2.length_le
          simp at this
    | some m =>
      rw [hf] at h
      by_cases hd : m.kind = Kind.dir
      · simp only [hd, if_true] at h
        obtain ⟨i1, i2⟩ := ih _ _ _ h
        refine ⟨i1, ?_⟩
        intro k n hk1 hk2
        obtain ⟨j1, j2, j3, _⟩ := i2 k n hk1 hk2
        refine ⟨j1, (List.prefix_append _ _).trans j2, by rwa [hpre] at j3, ?_⟩
        intro e
        rw [e] at j2
        have := j2.length_le
        simp at this
      · simp only [hd, if_false] at h
        cases h

/-- `MkdirAll` of a path that `stat` does not find: on success the chain of the
path is made, on failure nothing changes. -/
theorem MkdirAll_spec (w : World) (path : Str) (e : Errno)
    (hstat : stat w.fs path = .error e) :
    ((os.MkdirAll w path).1 ≠ none ∧ (os.MkdirAll w path).2.fs = w.fs) ∨
      ((os.MkdirAll w path).1 = none ∧
        mkdirFrom w.euid w.egid w.fs [] (resolve path) = .ok (os.MkdirAll w path).2.fs) := by
  unfold os.MkdirAll mkdirAll
  rw [hstat]
  cases h : mkdirFrom w.euid w.egid w.fs [] (resolve path) with
  | error e1 => left; simp [World.log_fs]
  | ok fs2 => right; exact ⟨rfl, rfl⟩

theorem resolve_nil : resolve [] = [] := by
  simp [resolve, filepath.cleanStack, strings.Split, filepath.cleanStep]

theorem resolve_Join_elems (B : Str) (cs : List Str)
    (hcs : ∀ c ∈ cs, filepath.properName c = true) :
    resolve (filepath.Join [B, filepath.render false cs.reverse]) = resolve B ++ cs := by
  have hv : filepath.ValidStack false cs.reverse :=
    filepath.ValidStack.of_proper _ _ (by simpa using hcs)
  have hx : filepath.render false cs.reverse ≠ [] := filepath.render_ne_nil _ _ hv
  by_cases hB : B = []
  · subst hB
    have : filepath.Join [[], filepath.render false cs.reverse]
        = filepath.Clean (filepath.render false cs.reverse) := by
      simp [filepath.Join, hx, strings.Join]
    rw [this, resolve_Clean, resolve_nil]
    unfold resolve filepath.cleanStack
    rw [filepath.foldl_Split_render true cs hcs]
    simp
  · rw [filepath.Join_pair_eq _ _ hB, resolve_Clean]
    unfold resolve
    rw [filepath.cleanStack_append_sep, filepath.foldl_Split_render true cs hcs]
    simp

end FS

/-- The root of the walk for a target below the destination root: the
destination root joined with the first element of the target below it, and the
target itself when it is the destination root. -/
theorem chownRoot_eq (config : tomlConfig) (cs : List Str)
    (hcs : ∀ c ∈ cs, filepath.properName c = true) :
    chownRoot (filepath.Join [config.Destin, filepath.render false cs.reverse]) config
      = filepath.Join [config.Destin, filepath.render false (cs.take 1).reverse] := by
  cases cs with
  | nil =>
    unfold chownRoot
    have hj : filepath.Join [config.Destin, filepath.render false ([] : List Str).reverse]
        = filepath.Clean config.Destin := by
      rw [filepath.Join_pair _ [] (by simp)]
      rfl
    have hrel : filepath.Rel config.Destin (filepath.Clean config.Destin) = some ['.'] := by
      unfold filepath.Rel
      simp [filepath.Clean_Clean]
    simp only [List.take_nil]
    rw [hj, hrel]
    simp [filepath.Dir, filepath.dirPart, filepath.Clean, filepath.isRooted, filepath.cleanStack,
      strings.Split, filepath.cleanStep, filepath.render]
  | cons c rest =>
    have hne : c :: rest ≠ [] := by simp
    have hc : filepath.properName c = true := hcs c (by simp)
    obtain ⟨init, l, hil⟩ : ∃ init l, c :: rest = init ++ [l] :=
      ⟨(c :: rest).dropLast, (c :: rest).getLast hne, (List.dropLast_append_getLast hne).symm⟩
    have hi : ∀ x ∈ init, filepath.properName x = true :=
      fun x hx => hcs x (by rw [hil]; simp [hx])
    have hl : filepath.properName l = true := hcs l (by rw [hil]; simp)
    have htake : filepath.render false ((c :: rest).take 1).reverse = c := by
      simp [filepath.render, strings.Join]
    rw [htake, filepath.render_proper _ hne]
    unfold chownRoot
    rw [Rel_under config.Destin _ hne hcs]
    simp only [Option.getD_some]
    rw [hil, filepath.Dir_Join init l hi hl]
    cases init with
    | nil =>
      simp only [List.nil_append, List.cons.injEq] at hil
      have : filepath.render false ([] : List Str).reverse = ['.'] := by simp [filepath.render]
      rw [this, if_pos rfl, hil.1]
      rfl
    | cons d ds =>
      simp only [List.cons_append, List.cons.injEq] at hil
      have hdne : d :: ds ≠ [] := by simp
      have hren : filepath.render false (d :: ds).reverse = strings.Join (d :: ds) :=
        filepath.render_proper _ hdne
      have hsplit : strings.Split (strings.Join (d :: ds)) = d :: ds :=
        strings.Split_Join _ hdne
          (fun x hx => ((filepath.properName_iff x).1 (hi x hx)).2.2.2)
      have hdot : strings.Join (d :: ds) ≠ ['.'] := by
        intro e
        have h2 := hsplit
        rw [e] at h2
        simp only [strings.Split] at h2
        have hd : ['.'] = d := by
          have := congrArg List.head? h2
          simpa using this
        have := (filepath.properName_iff d).1 (hi d (by simp))
        exact this.2.1 hd.symm
      rw [hren, if_neg hdot, hsplit, hil.1]
      rfl

theorem chownRoot_ne_nil (config : tomlConfig) (cs : List Str)
    (hcs : ∀ c ∈ cs, filepath.properName c = true) :
    chownRoot (filepath.Join [config.Destin, filepath.render false cs.reverse]) config ≠ [] := by
  rw [chownRoot_eq config cs hcs, filepath.Join_pair _ _ (fun c hc => hcs c (List.mem_of_mem_take hc))]
  exact filepath.render_ne_nil _ _
    ((filepath.cleanStack_valid _ _).proper_append _
      (by simpa using fun c hc => hcs c (List.mem_of_mem_take hc)))

theorem resolve_chownRoot (config : tomlConfig) (cs : List Str)
    (hcs : ∀ c ∈ cs, filepath.properName c = true) :
    FS.resolve (chownRoot (filepath.Join [config.Destin, filepath.render false cs.reverse]) config)
      = FS.resolve config.Destin ++ cs.take 1 := by
  rw [chownRoot_eq config cs hcs,
    FS.resolve_Join_elems _ _ (fun c hc => hcs c (List.mem_of_mem_take hc))]
/-- The ways `createDirectory` goes for a path that `stat` does not find, with
owners to be set: `MkdirAll` fails, or the chain is made and the walk cannot
start, or the walk runs over the entries at or below its root. -/
theorem createDirectory_missing (w : World) (path : Str) (config : tomlConfig)
    (hstat : FS.stat w.fs path = .error Errno.ENOENT)
    (hu : config.Uid ≠ -1) (hg : config.Gid ≠ -1) :
    ∃ b w1, createDirectory w path config = .ok (b, w1) ∧
      ((b = false ∧ w1.fs = w.fs) ∨
        ∃ fs2, FS.mkdirFrom w.euid w.egid w.fs [] (FS.resolve path) = .ok fs2 ∧
          ((b = false ∧ w1.fs = fs2) ∨
            ∃ e s0, s0.fs = fs2 ∧
              filepath.walkLoop World.fs (chownWalkFn config)
                (filepath.walkEntries fs2 (chownRoot path config)) s0 = .ok (e, w1) ∧
              (b = true ↔ e = none))) := by
  unfold createDirectory
  simp only [os.Stat, hstat, errOf, os.IsNotExist, decide_True, if_true]
  have hstat1 : FS.stat (w.log (Call.stat path)).fs path = .error Errno.ENOENT := hstat
  rcases FS.MkdirAll_spec (w.log (Call.stat path)) path _ hstat1 with ⟨h1, h2⟩ | ⟨h1, h2⟩
  · cases hm : os.MkdirAll (w.log (Call.stat path)) path with
    | mk e2 w2 =>
      rw [hm] at h1 h2
      cases e2 with
      | none => exact absurd rfl h1
      | some er => exact ⟨false, w2, rfl, Or.inl ⟨rfl, h2⟩⟩
  · cases hm : os.MkdirAll (w.log (Call.stat path)) path with
    | mk e2 w2 =>
      rw [hm] at h1 h2
      simp only at h1 h2
      subst h1
      simp only [hu, hg, ne_eq, not_false_eq_true, and_self, if_true]
      unfold filepath.Walk
      cases hl : FS.lstat (w2.log (Call.walk (chownRoot path config))).fs (chownRoot path config) with
      | error er =>
        simp only [chownWalkFn]
        exact ⟨false, _, rfl, Or.inr ⟨w2.fs, h2, Or.inl ⟨rfl, rfl⟩⟩⟩
      | ok n =>
        simp only
        obtain ⟨e, s1, hw⟩ := chownWalk_total config
          (filepath.walkEntries (w2.log (Call.walk (chownRoot path config))).fs
            (chownRoot path config)) (w2.log (Call.walk (chownRoot path config)))
        rw [hw]
        cases e with
        | some er =>
          exact ⟨false, s1, rfl, Or.inr ⟨w2.fs, h2,
            Or.inr ⟨some er, w2.log (Call.walk (chownRoot path config)), rfl, hw, by simp⟩⟩⟩
        | none =>
          exact ⟨true, s1, rfl, Or.inr ⟨w2.fs, h2,
            Or.inr ⟨none, w2.log (Call.walk (chownRoot path config)), rfl, hw, by simp⟩⟩⟩

/-- The entries the walk visits below a root that was not stored before the chain
was made: each is a new directory on the chain, and its name leads to its key. -/
theorem walkEntries_new (fs fs2 : FS) (u g : Int) (path root : Str)
    (hwf : FS.wf fs = true) (hroot : root ≠ [])
    (hmk : FS.mkdirFrom u g fs [] (FS.resolve path) = .ok fs2)
    (hnone : FS.find fs (FS.resolve root) = none) :
    ∀ name ∈ filepath.walkEntries fs2 root,
      FS.find fs (FS.resolve name) = none ∧
        (∀ m, FS.find fs2 (FS.resolve name) = some m → m.kind ≠ Kind.symlink) := by
  intro name hname
  unfold filepath.walkEntries at hname
  obtain ⟨k, hk, rfl⟩ := List.mem_map.1 hname
  obtain ⟨⟨n, hn⟩, hpre⟩ := (FS.mem_subtree fs2 _ k).1 hk
  obtain ⟨s, rfl⟩ := hpre
  have hkn : FS.find fs (FS.resolve root ++ s) = none := by
    cases hf : FS.find fs (FS.resolve root ++ s) with
    | none => rfl
    | some m =>
      exfalso
      by_cases hs : s = []
      · subst hs
        rw [List.append_nil, hnone] at hf
        cases hf
      · obtain ⟨p, hp, _⟩ := FS.wf_ancestor hwf (FS.resolve root) s m hs hf
        rw [hnone] at hp
        cases hp
  obtain ⟨_, i2⟩ := FS.mkdirFrom_spec u g _ _ _ _ hmk
  obtain ⟨hnew, _, hchain, _⟩ := i2 _ n hkn hn
  have hnames : ∀ c ∈ s, filepath.properName c = true := by
    intro c hc
    have hmem : c ∈ FS.resolve root ++ s := List.mem_append_right _ hc
    simp only [List.nil_append] at hchain
    exact FS.resolve_names path c (hchain.subset hmem)
  have hres : FS.resolve (filepath.walkName root ((FS.resolve root ++ s).drop (FS.resolve root).length))
      = FS.resolve root ++ s := by
    rw [List.drop_left, resolve_walkName root hroot s hnames]
  rw [hres]
  refine ⟨hkn, ?_⟩
  intro m hm
  rw [hn] at hm
  simp only [Option.some.injEq] at hm
  rw [← hm, hnew]
  simp [FS.newDir]

/-- The files on the way to a target below the destination root, when the
destination root was stored and the first element below it was not: those that
were not stored are the ones at or below that first element. -/
theorem first_missing_ancestor (fs : FS) (D cs q : Key) (d : Node) (hwf : FS.wf fs = true)
    (hD : FS.find fs D = some d) (hfirst : FS.find fs (D ++ cs.take 1) = none)
    (hq : q <+: D ++ cs) : FS.find fs q = none ↔ D ++ cs.take 1 <+: q := by
  constructor
  · intro hnone
    have hnotpre : ¬ q <+: D := by
      intro hp
      obtain ⟨m, hm⟩ := FS.wf_prefix_stored hwf hD hp
      rw [hnone] at hm
      cases hm
    rcases List.prefix_or_prefix_of_prefix hq (List.prefix_append D cs) with h | h
    · exact absurd h hnotpre
    · obtain ⟨s, rfl⟩ := h
      have hs : s <+: cs := (List.prefix_append_right_inj _).1 hq
      cases s with
      | nil => exact absurd (by simp) hnotpre
      | cons c s1 =>
        cases cs with
        | nil => simp at hs
        | cons c1 rest =>
          obtain ⟨hc, _⟩ := List.cons_prefix_cons.1 hs
          subst hc
          simp only [List.take_succ_cons, List.take_zero]
          have : D ++ c :: s1 = (D ++ [c]) ++ s1 := by simp
          rw [this]
          exact List.prefix_append _ _
  · intro hpre
    cases hf : FS.find fs q with
    | none => rfl
    | some m =>
      exfalso
      obtain ⟨m1, hm1⟩ := FS.wf_prefix_stored hwf hf hpre
      rw [hfirst] at hm1
      cases hm1

/-- Claim C5, as amended: for a target `Join(Destin, r)` with `r` a path of proper
names, or `.`, the root of the walk in `createDirectory` is the destination root
joined with the first element of `r` (the target itself when `r` is `.`),
whether or not that element existed before the call.  When the target does not
exist, owners are to be set and that root was not stored before the call,
`createDirectory` returns and every file or directory that existed before the
call is as it was, its owner included.  When the destination root existed and
that root did not, the root is the first ancestor of the target that did not
exist: of the files on the way to the target, those that were not stored are
the root and the ones below it. -/
theorem createDirectory_chown_new_root (config : tomlConfig) (cs : List Str)
    (hcs : ∀ c ∈ cs, filepath.properName c = true) :
    (chownRoot (filepath.Join [config.Destin, filepath.ofElems cs]) config
        = filepath.Join [config.Destin, filepath.ofElems (cs.take 1)] ∧
      FS.resolve (chownRoot (filepath.Join [config.Destin, filepath.ofElems cs]) config)
        = FS.resolve config.Destin ++ cs.take 1 ∧
      FS.resolve (filepath.Join [config.Destin, filepath.ofElems cs])
        = FS.resolve config.Destin ++ cs) ∧
    (∀ w : World, FS.wf w.fs = true → config.Uid ≠ -1 → config.Gid ≠ -1 →
      FS.stat w.fs (filepath.Join [config.Destin, filepath.ofElems cs]) = .error Errno.ENOENT →
      FS.find w.fs (FS.resolve
        (chownRoot (filepath.Join [config.Destin, filepath.ofElems cs]) config)) = none →
      ∃ b w1, createDirectory w (filepath.Join [config.Destin, filepath.ofElems cs]) config
          = .ok (b, w1) ∧
        ∀ k n, FS.find w.fs k = some n → FS.find w1.fs k = some n) ∧
    (∀ (w : World) (d : Node), FS.wf w.fs = true →
      FS.lstat w.fs config.Destin = .ok d →
      FS.find w.fs (FS.resolve
        (chownRoot (filepath.Join [config.Destin, filepath.ofElems cs]) config)) = none →
      ∀ q, q <+: FS.resolve (filepath.Join [config.Destin, filepath.ofElems cs]) →
        (FS.find w.fs q = none ↔
          FS.resolve (chownRoot (filepath.Join [config.Destin, filepath.ofElems cs]) config)
            <+: q)) := by
  unfold filepath.ofElems
  have hrootkey := resolve_chownRoot config cs hcs
  have htarget := FS.resolve_Join_elems config.Destin cs hcs
  refine ⟨⟨chownRoot_eq config cs hcs, hrootkey, htarget⟩, ?_, ?_⟩
  · intro w hwf hu hg hstat hnone
    obtain ⟨b, w1, h, hc⟩ := createDirectory_missing w _ config hstat hu hg
    refine ⟨b, w1, h, ?_⟩
    rcases hc with ⟨_, hfs⟩ | ⟨fs2, hmk, hc⟩
    · intro k n hk; rw [hfs]; exact hk
    · obtain ⟨i1, _⟩ := FS.mkdirFrom_spec _ _ _ _ _ _ hmk
      rcases hc with ⟨_, hfs⟩ | ⟨e, s0, hs0, hwalk, _⟩
      · intro k n hk; rw [hfs]; exact i1 k n hk
      · have hnew := walkEntries_new w.fs fs2 w.euid w.egid _ _ hwf
          (chownRoot_ne_nil config cs hcs) hmk hnone
        intro k n hk
        have hframe := chownWalk_frame config _ s0 e w1 hwalk
          (by
            intro name hname m hm
            rw [hs0] at hm
            exact (hnew name hname).2 m hm)
          k
          (by
            intro hmem
            obtain ⟨name, hname, hres⟩ := List.mem_map.1 hmem
            have := (hnew name hname).1
            rw [hres, hk] at this
            cases this)
        rw [hframe, hs0]
        exact i1 k n hk
  · intro w d hwf hd hnone q hq
    rw [hrootkey] at hnone ⊢
    rw [htarget] at hq
    exact first_missing_ancestor w.fs _ cs q d hwf (FS.find_of_lookupKey hd) hnone hq

set_option maxRecDepth 100000 in
/-- Witness of `createDirectory_chown_new_root`: the target `/d/b/c` with `/d`
present and `/d/b` missing, beside the file `/d/a/old` of user 7. -/
theorem createDirectory_chown_new_root_witness :
    chownRoot "/d/b/c".toList Sample.config = "/d/b".toList ∧
      (∃ b w1, createDirectory (Sample.world Sample.partialFS) "/d/b/c".toList Sample.config
          = .ok (b, w1) ∧
        FS.find w1.fs ["d".toList, "a".toList, "old".toList]
          = some (Sample.fileNode 7 7 [3])) ∧
      (FS.find Sample.partialFS ["d".toList, "b".toList] = none ∧
        FS.find Sample.partialFS ["d".toList, "b".toList, "c".toList] = none) :=
  have h := createDirectory_chown_new_root Sample.config ["b".toList, "c".toList] (by decide)
  have h3 := h.2.2 (Sample.world Sample.partialFS) (Sample.dirNode 0 0) (by decide) (by decide)
    (by decide)
  ⟨h.1.1, by
    obtain ⟨b, w1, h1, h2⟩ := h.2.1 (Sample.world Sample.partialFS) (by decide) (by decide)
      (by decide) (by decide) (by decide)
    exact ⟨b, w1, h1, h2 _ _ (by decide)⟩,
    (h3 ["d".toList, "b".toList] (by decide)).2 (by decide),
    (h3 ["d".toList, "b".toList, "c".toList] (by decide)).2 (by decide)⟩
/-! ## Ownership after a relocation into new directories -/

namespace FS

/-- The directories on the way down are directories after `mkdirFrom`. -/
theorem mkdirFrom_dirs (u g : Int) :
    ∀ (cs : List Str) (fs : FS) (pre : Key) (fs2 : FS),
      mkdirFrom u g fs pre cs = .ok fs2 →
      ∀ k, pre <+: k → k <+: pre ++ cs → k ≠ pre →
        ∃ n, find fs2 k = some n ∧ n.kind = Kind.dir := by
  intro cs
  induction cs with
  | nil =>
    intro fs pre fs2 _ k h1 h2 h3
    exfalso
    simp only [List.append_nil] at h2
    exact h3 (List.IsPrefix.eq_of_length_le h2 h1.length_le)
  | cons c cs ih =>
    intro fs pre fs2 h k h1 h2 h3
    unfold mkdirFrom at h
    have hpre : pre ++ [c] ++ cs = pre ++ c :: cs := by simp
    obtain ⟨s, rfl⟩ := h1
    have hs : s <+: c :: cs := (List.prefix_append_right_inj pre).1 h2
    cases s with
    | nil => simp at h3
    | cons d ds =>
      obtain ⟨hdc, hds⟩ := List.cons_prefix_cons.1 hs
      subst hdc
      have hk1 : pre ++ [d] <+: pre ++ d :: ds := by
        have : pre ++ d :: ds = pre ++ [d] ++ ds := by simp
        rw [this]; exact List.prefix_append _ _
      have hk2 : pre ++ d :: ds <+: pre ++ [d] ++ cs := by
        rw [hpre]; exact h2
      cases hf : find fs (pre ++ [d]) with
      | none =>
        rw [hf] at h
        simp only at h
        by_cases hds0 : ds = []
        · subst hds0
          obtain ⟨i1, _⟩ := mkdirFrom_spec u g _ _ _ _ h
          refine ⟨newDir u g, i1 _ _ ?_, rfl⟩
          rw [find_insert]; simp
        · refine ih _ _ _ h _ hk1 hk2 ?_
          intro e
          have := congrArg List.length e
          simp only [List.length_append, List.length_cons, List.length_nil] at this
          have : ds.length = 0 := by omega
          exact hds0 (List.length_eq_zero.1 this)
      | some m =>
        rw [hf] at h
        by_cases hd : m.kind = Kind.dir
        · simp only [hd, if_true] at h
          by_cases hds0 : ds = []
          · subst hds0
            obtain ⟨i1, _⟩ := mkdirFrom_spec u g _ _ _ _ h
            exact ⟨m, i1 _ _ hf, hd⟩
          · refine ih _ _ _ h _ hk1 hk2 ?_
            intro e
            have := congrArg List.length e
            simp only [List.length_append, List.length_cons, List.length_nil] at this
            have : ds.length = 0 := by omega
            exact hds0 (List.length_eq_zero.1 this)
        · simp only [hd, if_false] at h
          cases h

theorem rename_source {fs fs1 : FS} {old new : Str} (h : rename fs old new = .ok fs1) :
    ∃ n, lookupKey fs (resolve old) = .ok n := by
  cases hl : lookupKey fs (resolve old) with
  | error e =>
    have : rename fs old new = .error e := by
      unfold rename
      simp only [hl]
    rw [this] at h
    cases h
  | ok n => exact ⟨n, rfl⟩

end FS

theorem os.Rename_ok (w : World) (a b : Str) (w1 : World) (h : os.Rename w a b = (none, w1)) :
    FS.rename w.fs a b = .ok w1.fs := by
  unfold os.Rename at h
  cases hr : FS.rename w.fs a b with
  | error e => rw [hr] at h; simp at h
  | ok fs1 =>
    rw [hr] at h
    simp only [Prod.mk.injEq, true_and] at h
    rw [← h]

theorem os.Chown_ok (w : World) (p : Str) (u g : Int) (w1 : World)
    (h : os.Chown w p u g = (none, w1)) : FS.chown w.fs p u g = .ok w1.fs := by
  unfold os.Chown at h
  cases hr : FS.chown w.fs p u g with
  | error e => rw [hr] at h; simp at h
  | ok fs1 =>
    rw [hr] at h
    simp only [Prod.mk.injEq, true_and] at h
    rw [← h]

/-- The steps of a run of `mover` that ends with the file moved and its owner set. -/
theorem mover_moved_steps (w : World) (path : Str) (config : tomlConfig) (w1 : World)
    (hu : config.Uid ≠ -1) (hg : config.Gid ≠ -1)
    (h : mover w path config = .ok (Exit.moved, w1)) :
    ∃ (w2 w4 : World), createDirectory (w.log (Call.mover path)) (destPath path config) config
        = .ok (true, w2) ∧
      FS.rename w2.fs path (destName path config) = .ok w4.fs ∧
      FS.chown w4.fs (destName path config) config.Uid config.Gid = .ok w1.fs := by
  unfold mover at h
  simp only [os.Stat] at h
  cases hc : createDirectory (w.log (Call.mover path)) (destPath path config) config with
  | error p => rw [hc] at h; simp at h
  | ok r =>
    obtain ⟨b, w2⟩ := r
    rw [hc] at h
    cases b with
    | false => simp at h
    | true =>
      simp only at h
      by_cases hex : (chkFileExist (destName path config)
          (errOf (FS.stat w2.fs (destName path config))) && !config.Owrite) = true
      · rw [if_pos hex] at h; simp at h
      · rw [if_neg hex] at h
        cases hr : os.Rename (w2.log (Call.stat (destName path config))) path
            (destName path config) with
        | mk e w4 =>
          rw [hr] at h
          cases e with
          | some er => simp at h
          | none =>
            simp only at h
            rw [if_pos ⟨hu, hg⟩] at h
            cases hch : os.Chown w4 (destName path config) config.Uid config.Gid with
            | mk e5 w5 =>
              rw [hch] at h
              cases e5 with
              | some er => simp at h
              | none =>
                simp only [Except.ok.injEq, Prod.mk.injEq, true_and] at h
                subst h
                exact ⟨w2, w4, rfl,
                  os.Rename_ok (w2.log (Call.stat (destName path config))) _ _ _ hr,
                  os.Chown_ok _ _ _ _ _ hch⟩
/-- Claim C6, as amended: when the destination root exists as a directory, the
destination directory below it does not exist, no file that exists on the path
of the destination directory is a symbolic link, and `Uid` and `Gid` are
configured as owner ids (from `0` to `4294967294`), then after a run of `mover`
on a regular file under the source root that ends with the file moved and its
owner set, every directory that was not stored before the call is owned by
`Uid:Gid`, and the destination path holds the file, with the content of the
source file, owned by `Uid:Gid`.  On a path without a symbolic link the lookup
of the model is the one of the kernel; the hypothesis on links is what makes
the statement one about the program and is not needed for the proof. -/
theorem mover_new_directories_owned (w : World) (config : tomlConfig) (init : List Str) (l : Str)
    (src dst : Node) (w1 : World)
    (hi : ∀ c ∈ init, filepath.properName c = true) (hl : filepath.properName l = true)
    (hu0 : 0 ≤ config.Uid) (hu1 : config.Uid < 4294967295)
    (hg0 : 0 ≤ config.Gid) (hg1 : config.Gid < 4294967295) (hwf : FS.wf w.fs = true)
    (hdst : FS.lstat w.fs config.Destin = .ok dst) (hdk : dst.kind = Kind.dir)
    (hmissing : FS.stat w.fs
      (destPath (filepath.Join [config.Source, filepath.ofElems (init ++ [l])]) config)
        = .error Errno.ENOENT)
    (_hnolink : ∀ q n,
      q <+: FS.resolve
        (destPath (filepath.Join [config.Source, filepath.ofElems (init ++ [l])]) config) →
      FS.find w.fs q = some n → n.kind ≠ Kind.symlink)
    (hsrc : FS.lstat w.fs (filepath.Join [config.Source, filepath.ofElems (init ++ [l])])
      = .ok src)
    (hsk : src.kind = Kind.regular)
    (hmoved : mover w (filepath.Join [config.Source, filepath.ofElems (init ++ [l])]) config
      = .ok (Exit.moved, w1)) :
    (∀ k n, FS.find w.fs k = none → FS.find w1.fs k = some n → n.kind = Kind.dir →
        n.uid = config.Uid ∧ n.gid = config.Gid) ∧
      ∃ n, FS.find w1.fs (FS.resolve
          (destName (filepath.Join [config.Source, filepath.ofElems (init ++ [l])]) config))
            = some n ∧
        n.kind = Kind.regular ∧ n.data = src.data ∧ n.uid = config.Uid ∧ n.gid = config.Gid := by
  have hu : config.Uid ≠ -1 := by omega
  have hg : config.Gid ≠ -1 := by omega
  clear _hnolink
  have hP : filepath.ofElems (init ++ [l]) = strings.Join (init ++ [l]) :=
    filepath.render_proper _ (by simp)
  rw [hP] at hmissing hsrc hmoved ⊢
  have hresDN := resolve_destName (filepath.Join [config.Source, strings.Join (init ++ [l])]) config
    (by rw [Base_under config.Source init l hi hl]; exact hl)
  rw [Base_under config.Source init l hi hl] at hresDN
  have hDP : destPath (filepath.Join [config.Source, strings.Join (init ++ [l])]) config
      = filepath.Join [config.Destin, filepath.render false init.reverse] := by
    rw [destPath_under config init l hi hl, filepath.Join_pair _ init hi]
  obtain ⟨w2, w4, hcd, hren, hch⟩ := mover_moved_steps w _ config w1 hu hg hmoved
  clear hmoved
  rw [hDP] at hmissing hresDN hcd
  generalize destName (filepath.Join [config.Source, strings.Join (init ++ [l])]) config = DN
    at hresDN hren hch ⊢
  clear hDP
  generalize filepath.Join [config.Source, strings.Join (init ++ [l])] = P at hsrc hren hcd
  have hresDP := FS.resolve_Join_elems config.Destin init hi
  have hDestin : FS.find w.fs (FS.resolve config.Destin) = some dst := FS.find_of_lookupKey hdst
  have hinit : init ≠ [] := by
    intro e
    subst e
    simp only [List.append_nil] at hresDP
    have : FS.stat w.fs (filepath.Join [config.Destin, filepath.render false ([] : List Str).reverse])
        = .ok dst := FS.stat_of_find hwf (by rw [hresDP]; exact hDestin) (by rw [hdk]; decide)
    rw [this] at hmissing
    cases hmissing
  obtain ⟨b, w2', hcd', hcases⟩ := createDirectory_missing (w.log (Call.mover P)) _ config
    hmissing hu hg
  rw [hcd] at hcd'
  simp only [Except.ok.injEq, Prod.mk.injEq] at hcd'
  obtain ⟨rfl, rfl⟩ := hcd'
  rcases hcases with ⟨hb, _⟩ | ⟨fs2, hmk, hcases⟩
  · cases hb
  rcases hcases with ⟨hb, _⟩ | ⟨e, s0, hs0, hwalk, hb⟩
  · cases hb
  have he : e = none := hb.1 rfl
  subst he
  obtain ⟨i1, i2⟩ := FS.mkdirFrom_spec _ _ _ _ _ _ hmk
  have i3 := FS.mkdirFrom_dirs _ _ _ _ _ _ hmk
  have hstep : OwnerStep config.Uid config.Gid fs2 w2.fs := by
    have := chownWalk_ownerStep config _ s0 none w2 hwalk
    rwa [hs0] at this
  have hDPne : FS.resolve (filepath.Join [config.Destin, filepath.render false init.reverse]) ≠ [] := by
    rw [hresDP]
    simpa using fun _ => hinit
  have hDPnone : FS.find w.fs
      (FS.resolve (filepath.Join [config.Destin, filepath.render false init.reverse])) = none := by
    cases hf : FS.find w.fs
        (FS.resolve (filepath.Join [config.Destin, filepath.render false init.reverse])) with
    | none => rfl
    | some m =>
      exfalso
      obtain ⟨n, hn, hnd⟩ := i3 _ (List.nil_prefix) (by simp) hDPne
      have := i1 _ _ hf
      rw [hn] at this
      simp only [Option.some.injEq] at this
      subst this
      have hs : FS.stat w.fs (filepath.Join [config.Destin, filepath.render false init.reverse])
          = .ok n := FS.stat_of_find hwf hf (by rw [hnd]; decide)
      rw [hs] at hmissing
      cases hmissing
  have hko : FS.find w.fs (FS.resolve P) = some src := FS.find_of_lookupKey hsrc
  have hkn : FS.find w.fs (FS.resolve DN) = none := by
    cases hf : FS.find w.fs (FS.resolve DN) with
    | none => rfl
    | some m =>
      exfalso
      obtain ⟨p, hp, _⟩ := FS.wf_parent hwf hf (by rw [hresDN]; simp)
      rw [hresDN, List.dropLast_concat, hDPnone] at hp
      cases hp
  have hne : FS.resolve P ≠ FS.resolve DN := by
    intro e
    rw [e, hkn] at hko
    cases hko
  obtain ⟨src3, hsrc3⟩ := FS.rename_source hren
  have hf3 : FS.find w2.fs (FS.resolve P) = some src3 := FS.find_of_lookupKey hsrc3
  obtain ⟨m, hm1, hm2, hm3, _⟩ := hstep.data (i1 _ _ hko)
  rw [hf3] at hm1
  simp only [Option.some.injEq] at hm1
  subst hm1
  have hk3 : src3.kind = Kind.regular := by rw [hm2, hsk]
  obtain ⟨hfs4, _, _, _⟩ := FS.rename_file hsrc3 (by rw [hk3]; decide) hne hren
  obtain ⟨kf, nf, _, hfs5, hkey⟩ := FS.chown_spec hch
  have hf4kn : FS.find w4.fs (FS.resolve DN) = some src3 := by
    rw [hfs4, FS.find_insert]; simp
  have hkf : kf = FS.resolve DN := hkey src3 hf4kn (by rw [hk3]; decide)
  subst hkf
  constructor
  · intro k n hk0 hk1 hkd
    rw [hfs5, FS.find_modify] at hk1
    by_cases hkkf : k = FS.resolve DN
    · rw [if_pos hkkf] at hk1
      cases hf4 : FS.find w4.fs k with
      | none => rw [hf4] at hk1; cases hk1
      | some m4 =>
        rw [hf4] at hk1
        simp only [Option.map_some', Option.some.injEq] at hk1
        rw [← hk1]
        exact FS.setOwner_owner _ _ hu0 hu1 hg0 hg1 m4
    · rw [if_neg hkkf, hfs4, FS.find_insert, if_neg hkkf, FS.find_erase] at hk1
      by_cases hkko : k = FS.resolve P
      · rw [if_pos hkko] at hk1; cases hk1
      · rw [if_neg hkko] at hk1
        have hkind := hstep.kind k
        rw [hk1] at hkind
        cases hf2 : FS.find fs2 k with
        | none => rw [hf2] at hkind; cases hkind
        | some n2 =>
          rw [hf2] at hkind
          simp only [Option.map_some', Option.some.injEq] at hkind
          obtain ⟨hn2, _, hchain, _⟩ := i2 k n2 hk0 hf2
          have hnotpre : ¬ k <+: FS.resolve config.Destin := by
            intro hp
            obtain ⟨m, hm⟩ := FS.wf_prefix_stored hwf hDestin hp
            rw [hk0] at hm
            cases hm
          have hchain' : k <+: FS.resolve config.Destin ++ init := by
            simpa [hresDP] using hchain
          rcases List.prefix_or_prefix_of_prefix hchain' (List.prefix_append _ _) with h | h
          · exact absurd h hnotpre
          · obtain ⟨s, rfl⟩ := h
            have hs : s <+: init := (List.prefix_append_right_inj _).1 hchain'
            obtain ⟨c1, rest, rfl⟩ := List.exists_cons_of_ne_nil hinit
            cases s with
            | nil => exact absurd (by simp) hnotpre
            | cons d ds =>
              obtain ⟨hd, hds⟩ := List.cons_prefix_cons.1 hs
              subst hd
              have hrootkey := resolve_chownRoot config (d :: rest) hi
              simp only [List.take_succ_cons, List.take_zero] at hrootkey
              have hrootne := chownRoot_ne_nil config (d :: rest) hi
              have hkeyeq : FS.resolve config.Destin ++ d :: ds
                  = (FS.resolve config.Destin ++ [d]) ++ ds := by simp
              have hmem : FS.resolve config.Destin ++ d :: ds ∈ FS.subtree fs2
                  (FS.resolve (chownRoot (filepath.Join [config.Destin,
                    filepath.render false (d :: rest).reverse]) config)) := by
                rw [FS.mem_subtree, hrootkey, hkeyeq]
                exact ⟨⟨n2, by rw [← hkeyeq]; exact hf2⟩, List.prefix_append _ _⟩
              have hnames : ∀ c ∈ ds, filepath.properName c = true :=
                fun c hc => hi c (List.mem_cons_of_mem _ (hds.subset hc))
              have hres : FS.resolve (filepath.walkName
                  (chownRoot (filepath.Join [config.Destin,
                    filepath.render false (d :: rest).reverse]) config)
                  ((FS.resolve config.Destin ++ d :: ds).drop (FS.resolve
                    (chownRoot (filepath.Join [config.Destin,
                      filepath.render false (d :: rest).reverse]) config)).length))
                  = FS.resolve config.Destin ++ d :: ds := by
                rw [hrootkey, hkeyeq, List.drop_left, resolve_walkName _ hrootne ds hnames,
                  hrootkey]
              have hname : filepath.walkName
                  (chownRoot (filepath.Join [config.Destin,
                    filepath.render false (d :: rest).reverse]) config)
                  ((FS.resolve config.Destin ++ d :: ds).drop (FS.resolve
                    (chownRoot (filepath.Join [config.Destin,
                      filepath.render false (d :: rest).reverse]) config)).length)
                  ∈ filepath.walkEntries fs2 (chownRoot (filepath.Join [config.Destin,
                    filepath.render false (d :: rest).reverse]) config) :=
                List.mem_map.2 ⟨_, hmem, rfl⟩
              have hown := chownWalk_owned config _ s0 w2 hwalk _ hname n2
                (by rw [hs0, hres]; exact hf2) (by rw [hn2]; simp [FS.newDir])
              rw [hres, hk1] at hown
              simp only [Option.some.injEq] at hown
              rw [hown]
              exact FS.setOwner_owner _ _ hu0 hu1 hg0 hg1 n2
  · refine ⟨FS.setOwner config.Uid config.Gid src3, ?_, hk3, hm3, ?_⟩
    · rw [hfs5, FS.find_modify, if_pos rfl, hf4kn]; rfl
    · exact FS.setOwner_owner _ _ hu0 hu1 hg0 hg1 src3

set_option maxRecDepth 100000 in
/-- Witness of `mover_new_directories_owned`: `/s/a/b/f` is moved to `/d/a/b/f`
with `/d` present and `/d/a` missing. -/
theorem mover_new_directories_owned_witness :
    (∀ k n, FS.find Sample.deepFS k = none → FS.find Sample.deepMoved.fs k = some n →
        n.kind = Kind.dir → n.uid = 1000 ∧ n.gid = 1000) ∧
      FS.find Sample.deepMoved.fs ["d".toList, "a".toList] = some (Sample.dirNode 1000 1000) ∧
      FS.find Sample.deepMoved.fs ["d".toList, "a".toList, "b".toList]
        = some (Sample.dirNode 1000 1000) ∧
      ∃ n, FS.find Sample.deepMoved.fs ["d".toList, "a".toList, "b".toList, "f".toList] = some n ∧
        n.kind = Kind.regular ∧ n.data = [1] ∧ n.uid = 1000 ∧ n.gid = 1000 :=
  have hlinks : ∀ (q : Key) (n : Node), FS.find Sample.deepFS q = some n →
      n.kind ≠ Kind.symlink := by
    intro q n hq
    have hmem := FS.mem_of_find hq
    have hall : ∀ e ∈ Sample.deepFS, e.2.kind ≠ Kind.symlink := by decide
    exact hall _ hmem
  have h := mover_new_directories_owned (Sample.world Sample.deepFS) Sample.config
    ["a".toList, "b".toList] "f".toList (Sample.fileNode 0 0 [1]) (Sample.dirNode 0 0)
    Sample.deepMoved (by decide) (by decide) (by decide) (by decide) (by decide) (by decide)
    (by decide) (by decide) (by decide) (by decide) (fun q n _ hq => hlinks q n hq)
    (by decide) (by decide) (by decide)
  ⟨h.1, by decide, by decide, h.2⟩
/-! ## Distinct roots -/

/-- With distinct roots, the destination of a path under the source root is
another path than the source path. -/
theorem destName_ne_source (config : tomlConfig) (init : List Str) (l : Str)
    (hi : ∀ c ∈ init, filepath.properName c = true) (hl : filepath.properName l = true)
    (hroots : FS.resolve config.Source ≠ FS.resolve config.Destin) :
    FS.resolve (filepath.Join [config.Source, filepath.ofElems (init ++ [l])])
      ≠ FS.resolve (destName (filepath.Join [config.Source, filepath.ofElems (init ++ [l])])
          config) := by
  have hcs : ∀ c ∈ init ++ [l], filepath.properName c = true := by
    intro c hc
    rcases List.mem_append.1 hc with h | h
    · exact hi c h
    · simpa [List.mem_singleton.1 h] using hl
  have hP : FS.resolve (filepath.Join [config.Source, filepath.ofElems (init ++ [l])])
      = FS.resolve config.Source ++ (init ++ [l]) :=
    FS.resolve_Join_elems config.Source (init ++ [l]) hcs
  have hD := FS.resolve_Join_elems config.Destin init hi
  have hE : filepath.ofElems (init ++ [l]) = strings.Join (init ++ [l]) :=
    filepath.render_proper _ (by simp)
  have hDN := resolve_destName (filepath.Join [config.Source, strings.Join (init ++ [l])]) config
    (by rw [Base_under config.Source init l hi hl]; exact hl)
  rw [Base_under config.Source init l hi hl, destPath_under config init l hi hl,
    ← filepath.Join_pair _ init hi, hD] at hDN
  rw [hP, hE, hDN, List.append_assoc]
  intro e
  exact hroots (List.append_cancel_right e)

